import Mathlib

/-!
Verification of the time-series alignment and derived-quantity pipeline of
ulog2skewt (src/main.py) over a shallow embedding in Lean.

Modelling conventions:
* a pandas DataFrame is a `Table`: a list of column names plus rows indexed
  by an integer second; a cell holds `Option ℚ`, with `none` standing for
  NaN, the missing-value marker of pandas float columns;
* raw ULog records carry an integer microsecond timestamp and exact
  rational field values;
* the IEEE special values produced by the dewpoint formula (lines 55-62)
  are modelled by the carrier `RVal` with explicit nan / +inf / -inf
  constructors and IEEE propagation rules, the finite branches of the
  transcendental functions being abstracted as parameters.
-/

/-- A pandas DataFrame with a time index: `cols` lists the column names and
each row pairs the (integer-second) index value with the list of per-column
cell values, `none` standing for NaN (missing). -/
structure Table where
  cols : List String
  rows : List (Int × List (Option ℚ))
deriving DecidableEq, Repr

/-- Embeds `pandas.DataFrame.empty` (used at src/main.py line 34): true when
either axis has length zero. -/
def Table.isEmpty (t : Table) : Bool :=
  t.rows.isEmpty || t.cols.isEmpty

/-- Label-based row access: the first row whose index value equals `s`. -/
def rowLookup (t : Table) (s : Int) : Option (List (Option ℚ)) :=
  (t.rows.find? (fun r => r.1 == s)).map Prod.snd

/-- Cell of column `f` at index value `s`; `none` both for a NaN cell and
when the row or the column is absent from the table. -/
def valueAt (t : Table) (s : Int) (f : String) : Option ℚ :=
  match t.cols.findIdx? (fun c => c == f), rowLookup t s with
  | some i, some vs => vs.getD i none
  | _, _ => none

/-- Embeds the window-selection step
`df[(df.index >= start_time) & (df.index <= end_time)]` (src/main.py
line 161): a boolean-mask filter keeping the rows whose index value lies in
the closed interval. No validation of the pair is performed by the code. -/
def selectWindow (t : Table) (a b : Int) : Table :=
  { cols := t.cols
    rows := t.rows.filter (fun r => decide (a ≤ r.1 ∧ r.1 ≤ b)) }

/-- Round-half-to-even on rationals: the rounding performed by
`pd.to_datetime(df.index, unit='s').round('s')` (src/main.py line 30),
which rounds a timestamp to the nearest whole second with ties going to
the even second (banker's rounding, the pandas `Timestamp.round`
convention). -/
def rhe (q : ℚ) : Int :=
  if q - ⌊q⌋ < 1/2 then ⌊q⌋
  else if 1/2 < q - ⌊q⌋ then ⌊q⌋ + 1
  else if ⌊q⌋ % 2 = 0 then ⌊q⌋ else ⌊q⌋ + 1

/-- Rounded second of one raw record: the integer microsecond timestamp
scaled by 1e6 (src/main.py line 26: `df["timestamp"] / 1e6`) and rounded
to the nearest whole second (line 30). -/
def recSec (r : Int × List ℚ) : Int :=
  rhe ((r.1 : ℚ) / 1000000)

/-- Smallest rounded second of a record list (0 for no records). -/
def loSec : List (Int × List ℚ) → Int
  | [] => 0
  | r :: rs => (rs.map recSec).foldl min (recSec r)

/-- Largest rounded second of a record list (0 for no records). -/
def hiSec : List (Int × List ℚ) → Int
  | [] => 0
  | r :: rs => (rs.map recSec).foldl max (recSec r)

/-- Consecutive integers from lo to hi inclusive (empty when hi < lo),
the bin labels produced by `resample('1s')`. -/
def intRange (lo hi : Int) : List Int :=
  (List.range (hi + 1 - lo).toNat).map (fun k : Nat => lo + (k : Int))

/-- Arithmetic mean of field `i` over a bucket of raw records (the pandas
`mean` aggregation of one resample bin). -/
def bucketMean (bucket : List (Int × List ℚ)) (i : Nat) : ℚ :=
  (bucket.map (fun r => r.2.getD i 0)).sum / bucket.length

/-- Embeds the Time-Base Normalizer (src/main.py lines 26-32): timestamps
are scaled to seconds and rounded to whole seconds, and
`df.resample('1s').mean()` produces one row for every whole second from
the first to the last rounded second; a second whose bucket of raw rows
is empty yields an all-NaN row (pandas mean over an empty bin), a
nonempty bucket yields the per-field arithmetic mean. -/
def binRow (fields : List String) (records : List (Int × List ℚ)) (s : Int) :
    Int × List (Option ℚ) :=
  let bucket := records.filter (fun r => recSec r == s)
  (s, if bucket.isEmpty then fields.map (fun _ => none)
      else (List.range fields.length).map (fun i => some (bucketMean bucket i)))

def normalize1s (fields : List String) (records : List (Int × List ℚ)) : Table :=
  match records with
  | [] => ⟨fields, []⟩
  | _ :: _ =>
    ⟨fields, (intRange (loSec records) (hiSec records)).map (binRow fields records)⟩

/-- Embeds `np.sqrt(df['windspeed_north']**2 + df['windspeed_east']**2)`
(src/main.py line 51) over the reals: the rowwise wind-magnitude formula. -/
noncomputable def wind_magnitude (north east : ℝ) : ℝ :=
  Real.sqrt (north ^ 2 + east ^ 2)

/-- The four-quadrant arctangent `np.arctan2(y, x)` over the reals
(which carry no signed zeros). -/
noncomputable def arctan2 (y x : ℝ) : ℝ :=
  if 0 < x then Real.arctan (y / x)
  else if x < 0 then
    (if 0 ≤ y then Real.arctan (y / x) + Real.pi else Real.arctan (y / x) - Real.pi)
  else
    (if 0 < y then Real.pi / 2 else if y < 0 then -(Real.pi / 2) else 0)

/-- Embeds `np.arctan2(df['windspeed_east'], df['windspeed_north']) * (180 / np.pi)`
(src/main.py line 52): the rowwise wind-direction formula, in degrees. -/
noncomputable def wind_direction (north east : ℝ) : ℝ :=
  arctan2 east north * (180 / Real.pi)

/-- IEEE-754 double values as seen by the dewpoint computation: NaN, the
two infinities, finite values modelled as exact rationals. `nan` is what
pandas treats as the missing value of a float column. -/
inductive RVal where
  | nan : RVal
  | pinf : RVal
  | ninf : RVal
  | fin : ℚ → RVal
deriving DecidableEq, Repr

/-- IEEE negation. -/
def vneg : RVal → RVal
  | RVal.nan => RVal.nan
  | RVal.pinf => RVal.ninf
  | RVal.ninf => RVal.pinf
  | RVal.fin x => RVal.fin (-x)

/-- IEEE addition (no signed zeros): NaN propagates, opposite infinities
give NaN. -/
def vadd : RVal → RVal → RVal
  | RVal.nan, _ => RVal.nan
  | _, RVal.nan => RVal.nan
  | RVal.pinf, RVal.ninf => RVal.nan
  | RVal.ninf, RVal.pinf => RVal.nan
  | RVal.pinf, _ => RVal.pinf
  | _, RVal.pinf => RVal.pinf
  | RVal.ninf, _ => RVal.ninf
  | _, RVal.ninf => RVal.ninf
  | RVal.fin a, RVal.fin b => RVal.fin (a + b)

/-- IEEE subtraction. -/
def vsub (a b : RVal) : RVal := vadd a (vneg b)

/-- IEEE multiplication: NaN propagates, zero times infinity is NaN,
otherwise the usual sign rules. -/
def vmul : RVal → RVal → RVal
  | RVal.nan, _ => RVal.nan
  | _, RVal.nan => RVal.nan
  | RVal.pinf, RVal.pinf => RVal.pinf
  | RVal.pinf, RVal.ninf => RVal.ninf
  | RVal.ninf, RVal.pinf => RVal.ninf
  | RVal.ninf, RVal.ninf => RVal.pinf
  | RVal.pinf, RVal.fin b =>
    if 0 < b then RVal.pinf else if b < 0 then RVal.ninf else RVal.nan
  | RVal.fin a, RVal.pinf =>
    if 0 < a then RVal.pinf else if a < 0 then RVal.ninf else RVal.nan
  | RVal.ninf, RVal.fin b =>
    if 0 < b then RVal.ninf else if b < 0 then RVal.pinf else RVal.nan
  | RVal.fin a, RVal.ninf =>
    if 0 < a then RVal.ninf else if a < 0 then RVal.pinf else RVal.nan
  | RVal.fin a, RVal.fin b => RVal.fin (a * b)

/-- IEEE division (positive zero only): NaN propagates, infinity over
infinity and zero over zero give NaN, finite over zero gives a signed
infinity, finite over infinity gives zero. -/
def vdiv : RVal → RVal → RVal
  | RVal.nan, _ => RVal.nan
  | _, RVal.nan => RVal.nan
  | RVal.pinf, RVal.pinf => RVal.nan
  | RVal.pinf, RVal.ninf => RVal.nan
  | RVal.ninf, RVal.pinf => RVal.nan
  | RVal.ninf, RVal.ninf => RVal.nan
  | RVal.pinf, RVal.fin b => if b < 0 then RVal.ninf else RVal.pinf
  | RVal.ninf, RVal.fin b => if b < 0 then RVal.pinf else RVal.ninf
  | RVal.fin _, RVal.pinf => RVal.fin 0
  | RVal.fin _, RVal.ninf => RVal.fin 0
  | RVal.fin a, RVal.fin b =>
    if b = 0 then (if a = 0 then RVal.nan else if 0 < a then RVal.pinf else RVal.ninf)
    else RVal.fin (a / b)

/-- `np.exp` on the extended values: NaN propagates, exp(+inf) = +inf,
exp(-inf) = 0; the finite branch of IEEE exp is abstracted as the
parameter `fexp` — the theorems below hold for every such function. -/
def vexp (fexp : ℚ → RVal) : RVal → RVal
  | RVal.nan => RVal.nan
  | RVal.pinf => RVal.pinf
  | RVal.ninf => RVal.fin 0
  | RVal.fin x => fexp x

/-- `np.log` on the extended values: NaN propagates, log(+inf) = +inf,
log of a negative value is NaN, log 0 = -inf (numpy emits a runtime
warning, not an error); the positive finite branch is abstracted as the
parameter `flog`. -/
def vlog (flog : ℚ → RVal) : RVal → RVal
  | RVal.nan => RVal.nan
  | RVal.pinf => RVal.pinf
  | RVal.ninf => RVal.nan
  | RVal.fin x => if 0 < x then flog x else if x = 0 then RVal.ninf else RVal.nan

/-- Pandas `isna` on a float cell: NaN is the missing-value marker. -/
def isNA : RVal → Bool
  | RVal.nan => true
  | _ => false

/-- Embeds the dewpoint computation of `calculate_derived_values`
(src/main.py lines 55-62), rowwise: `RH = sht_humidity / 100.0`,
`e = 6.112 * exp((17.67 * T) / (T + 243.5)) * RH`,
`dewpoint = (243.5 * log(e / 6.112)) / (17.67 - log(e / 6.112))`,
with the finite branches of exp and log abstracted as `fexp`/`flog`. -/
def dewpoint (fexp flog : ℚ → RVal) (hum temp : RVal) : RVal :=
  let rh := vdiv hum (RVal.fin 100)
  let e := vmul (vmul (RVal.fin (6112/1000))
      (vexp fexp (vdiv (vmul (RVal.fin (1767/100)) temp)
        (vadd temp (RVal.fin (487/2)))))) rh
  let lg := vlog flog (vdiv e (RVal.fin (6112/1000)))
  vdiv (vmul (RVal.fin (487/2)) lg) (vsub (RVal.fin (1767/100)) lg)

/-- The dewpoint column: the pandas expressions at lines 55-62 are
elementwise over the aligned humidity and temperature columns of one
frame, so the column is the rowwise map of `dewpoint` over the
(humidity, temperature) pairs. -/
def dewpointCol (fexp flog : ℚ → RVal) (rows : List (RVal × RVal)) : List RVal :=
  rows.map (fun r => dewpoint fexp flog r.1 r.2)

/-- Sorted union of two strictly increasing index lists: the index of a
pandas outer join of two frames with sorted unique indexes. -/
def mergeIdx : List Int → List Int → List Int
  | [], ys => ys
  | xs, [] => xs
  | x :: xs, y :: ys =>
    if x < y then x :: mergeIdx xs (y :: ys)
    else if y < x then y :: mergeIdx (x :: xs) ys
    else x :: mergeIdx xs ys
termination_by a b => a.length + b.length

/-- One row of `a.join(b, how='outer')` at index value `s`: the cells of
`a` when `s` is in `a`'s index (else NaN for every column of `a`),
followed by those of `b`. -/
def joinRow (a b : Table) (s : Int) : Int × List (Option ℚ) :=
  (s, ((rowLookup a s).getD (List.replicate a.cols.length none))
      ++ ((rowLookup b s).getD (List.replicate b.cols.length none)))

/-- Embeds `master_df.join(df_resampled, how='outer')` (src/main.py
line 37) on sorted unique indexes: columns side by side, one row per
element of the sorted union of the two indexes, absent cells NaN. -/
def joinTables (a b : Table) : Table :=
  ⟨a.cols ++ b.cols,
    (mergeIdx (a.rows.map Prod.fst) (b.rows.map Prod.fst)).map (joinRow a b)⟩

/-- Embeds `master_df.dropna(how="all")` (src/main.py line 41): drop the
rows whose cells are all missing. -/
def dropAllNa (t : Table) : Table :=
  ⟨t.cols, t.rows.filter (fun r => r.2.any (fun v => v.isSome))⟩

/-- The empty frame `pd.DataFrame()` (src/main.py line 18). -/
def emptyTable : Table := ⟨[], []⟩

/-- The merge step of `process_ulog_to_dataframe` (lines 34-37): adopt
the series when the accumulated master frame is empty, else outer-join. -/
def mergeStep (acc : Table) (s : Table) : Table :=
  if acc.isEmpty then s else joinTables acc s

/-- Merging a list of normalized series left-to-right (lines 34-37)
followed by the drop of fully-empty rows (line 41). -/
def mergeAll (l : List Table) : Table :=
  dropAllNa (l.foldl mergeStep emptyTable)

/-- Well-formedness of a normalized series as the normalizer produces it:
at least one named column, no duplicate column names, rectangular rows,
strictly increasing index. -/
def TWF (t : Table) : Prop :=
  t.cols ≠ [] ∧ t.cols.Nodup
    ∧ (∀ r ∈ t.rows, r.2.length = t.cols.length)
    ∧ t.rows.Pairwise (fun p q => p.1 < q.1)

/-- One decoded stream of the ULog container (an element of
`ulog.data_list`): its topic name, its schema (the keys of
`message.data`, timestamp kept separately), and its rows (timestamp plus
the values of the schema fields in schema order). -/
structure ULogStream where
  name : String
  schema : List String
  rows : List (Int × List ℚ)
deriving DecidableEq, Repr

/-- The single hard error of the pipeline: a configured field absent from
a matched topic (the pandas KeyError raised at line 25; `FieldNotFound`
in the specification). A missing topic is not an error — it is absorbed
as a warning at lines 38-39. -/
inductive PErr where
  | fieldNotFound : String → String → PErr
deriving DecidableEq, Repr

/-- Restriction of a matched stream to the configured columns
(line 25, `df[["timestamp"] + columns]`): per row, the timestamp and the
selected fields' values in the configured order. -/
def extractRecords (st : ULogStream) (cols : List String) : List (Int × List ℚ) :=
  st.rows.map (fun r =>
    (r.1, cols.map (fun c => r.2.getD ((st.schema.findIdx? (fun f => f == c)).getD 0) 0)))

/-- One iteration of the topic loop of `process_ulog_to_dataframe`
(src/main.py lines 20-39) on the accumulator (warned topics, master
frame): find the first stream whose name equals the topic exactly
(line 22); when none exists record a warning and continue (lines 38-39);
when one matches but lacks a configured field, fail (the KeyError of
line 25 escapes the inner `except StopIteration`); otherwise restrict,
normalize and resample the stream (lines 25-32) and merge it into the
master frame (lines 34-37). -/
def topicStep (log : List ULogStream) (acc : List String × Table)
    (entry : String × List String) : Except PErr (List String × Table) :=
  match log.find? (fun m => m.name == entry.1) with
  | none => Except.ok (acc.1 ++ [entry.1], acc.2)
  | some st =>
    match entry.2.find? (fun c => !(st.schema.contains c)) with
    | some c => Except.error (PErr.fieldNotFound entry.1 c)
    | none =>
      Except.ok (acc.1, mergeStep acc.2 (normalize1s entry.2 (extractRecords st entry.2)))

/-- Embeds `process_ulog_to_dataframe` (src/main.py lines 13-45): fold
the topic loop over the configured topics, then drop fully-empty rows
(line 41). The result pairs the warned (missing) topics with the unified
table; an error models the exception propagating out of the function
(logged and re-raised at lines 43-45, aborting the run in `__main__`). -/
def process_ulog_to_dataframe (log : List ULogStream)
    (sel : List (String × List String)) : Except PErr (List String × Table) :=
  (sel.foldlM (topicStep log) ([], emptyTable)).map (fun a => (a.1, dropAllNa a.2))

/-- Disjointness of the column names of two series (the merge contract
assumes each source contributes disjoint field names). -/
def ColsDisj (a b : Table) : Prop :=
  ∀ f, f ∈ a.cols → f ∉ b.cols

/-- The series owning a field name: the first series of the list whose
columns contain it (unique under pairwise disjointness). -/
def ownerOf (l : List Table) (f : String) : Option Table :=
  l.find? (fun t => t.cols.contains f)

/-- The per-field per-second content of a list of series: the value of
the owning series, `none` when no series owns the field. -/
def idealVal (l : List Table) (s : Int) (f : String) : Option ℚ :=
  match ownerOf l f with
  | some t => valueAt t s f
  | none => none

/-- Invariant of the merge loop's master frame after some prefix of the
series list has been processed: well-formed shape, column provenance, and
agreement of index and cell contents with the per-field semantics of the
processed series. -/
def MergeInv (processed : List Table) (acc : Table) : Prop :=
  acc.cols.Nodup
  ∧ (∀ f ∈ acc.cols, ∃ t ∈ processed, f ∈ t.cols)
  ∧ (∀ r ∈ acc.rows, r.2.length = acc.cols.length)
  ∧ acc.rows.Pairwise (fun p q => p.1 < q.1)
  ∧ (∀ s : Int, s ∈ acc.rows.map Prod.fst ↔ ∃ t ∈ processed, s ∈ t.rows.map Prod.fst)
  ∧ (∀ (s : Int) (f : String), valueAt acc s f = idealVal processed s f)
  ∧ (acc.cols = [] → acc.rows = [])

/-- True exactly when the pipeline run aborted with an exception. -/
def exceptFailed : Except PErr (List String × Table) → Bool
  | Except.error _ => true
  | Except.ok _ => false

theorem selectWindow_filter_single (s : Int) (v : List (Option ℚ))
    (l : List (Int × List (Option ℚ)))
    (hs : l.Pairwise (fun p q => p.1 < q.1)) (hm : (s, v) ∈ l) :
    l.filter (fun r => decide (s ≤ r.1 ∧ r.1 ≤ s)) = [(s, v)] := by
  induction l with
  | nil => cases hm
  | cons head tail ih =>
    rcases List.pairwise_cons.mp hs with ⟨hhead, htail⟩
    rcases List.mem_cons.mp hm with heq | hm2
    · subst heq
      rw [List.filter_cons_of_pos (by simp)]
      have hnil : tail.filter (fun r => decide (s ≤ r.1 ∧ r.1 ≤ s)) = [] := by
        refine List.filter_eq_nil_iff.mpr ?_
        intro r hr
        have := hhead r hr
        simp only [decide_eq_true_eq, not_and]
        intro h1
        omega
      rw [hnil]
    · have hlt : head.1 < s := hhead (s, v) hm2
      rw [List.filter_cons_of_neg (by simp only [decide_eq_true_eq, not_and]; omega)]
      exact ih htail hm2

theorem selectWindow_filter_none (s : Int) (l : List (Int × List (Option ℚ)))
    (h : ∀ v, (s, v) ∉ l) :
    l.filter (fun r => decide (s ≤ r.1 ∧ r.1 ≤ s)) = [] := by
  refine List.filter_eq_nil_iff.mpr ?_
  intro r hr
  simp only [decide_eq_true_eq, not_and]
  intro h1 h2
  have hr1 : r.1 = s := le_antisymm h2 h1
  have : (s, r.2) ∈ l := by rw [← hr1]; exact hr
  exact h r.2 this

/-- Claim C8: with start ≤ end the window selection keeps exactly the rows
whose index lies in the closed interval [start, end], as a sublist of the
input (order and values preserved, columns unchanged); with
start = end = s it returns exactly the single row at s when one exists, and
the table with no rows — an ordinary value, not an error — when none does. -/
theorem selectWindow_closed_interval (t : Table) (a b : Int) (hab : a ≤ b) :
    (∀ r, r ∈ (selectWindow t a b).rows ↔ r ∈ t.rows ∧ a ≤ r.1 ∧ r.1 ≤ b)
    ∧ (selectWindow t a b).rows.Sublist t.rows
    ∧ (selectWindow t a b).cols = t.cols
    ∧ (∀ s v, t.rows.Pairwise (fun p q => p.1 < q.1) → (s, v) ∈ t.rows →
        (selectWindow t s s).rows = [(s, v)])
    ∧ (∀ s, (∀ v, (s, v) ∉ t.rows) → (selectWindow t s s).rows = []) := by
  refine ⟨?_, ?_, rfl, ?_, ?_⟩
  · intro r
    simp [selectWindow, List.mem_filter]
  · exact List.filter_sublist t.rows
  · intro s v hs hm
    exact selectWindow_filter_single s v t.rows hs hm
  · intro s h
    exact selectWindow_filter_none s t.rows h

/-- Concrete instantiation of `selectWindow_closed_interval`: on a
three-row table, selecting the window [1, 1] returns exactly the row
indexed 1. -/
theorem selectWindow_closed_interval_check :
    (selectWindow ⟨["pressure"], [(0, [some 1]), (1, [some 2]), (2, [some 3])]⟩ 1 1).rows
      = [(1, [some 2])] :=
  (selectWindow_closed_interval
      ⟨["pressure"], [(0, [some 1]), (1, [some 2]), (2, [some 3])]⟩ 1 1
      (by decide)).2.2.2.1 1 [some 2] (by decide) (by decide)

/-- Claim C2 (counterexample): the code never validates start ≤ end — no
InvalidRangeError exists anywhere in src/main.py. With start = 5 > 3 = end
the selection step returns a table (with the same columns and no rows)
instead of failing. -/
theorem selectWindow_no_range_validation :
    selectWindow ⟨["pressure"], [(0, [some 1]), (4, [some 2])]⟩ 5 3
      = ⟨["pressure"], []⟩ := by
  rfl

/-- Claim C2 (amended): passing start > end to the window selection is not
rejected; the boolean mask is everywhere false, so a table with the same
columns and no rows is returned, and no error is raised. -/
theorem selectWindow_reversed_range (t : Table) (a b : Int) (h : b < a) :
    (selectWindow t a b).rows = [] ∧ (selectWindow t a b).cols = t.cols := by
  refine ⟨?_, rfl⟩
  refine List.filter_eq_nil_iff.mpr ?_
  intro r hr
  simp only [decide_eq_true_eq, not_and]
  intro h1
  omega

/-- Concrete instantiation of `selectWindow_reversed_range`. -/
theorem selectWindow_reversed_range_check :
    (selectWindow ⟨["pressure"], [(0, [some 1]), (4, [some 2])]⟩ 5 3).rows = [] :=
  (selectWindow_reversed_range ⟨["pressure"], [(0, [some 1]), (4, [some 2])]⟩ 5 3
    (by decide)).1

theorem mem_intRange (lo hi s : Int) : s ∈ intRange lo hi ↔ lo ≤ s ∧ s ≤ hi := by
  unfold intRange
  constructor
  · intro hs
    rcases List.mem_map.mp hs with ⟨k, hk, rfl⟩
    rw [List.mem_range] at hk
    omega
  · intro h
    refine List.mem_map.mpr ⟨(s - lo).toNat, ?_, ?_⟩
    · rw [List.mem_range]
      omega
    · omega

theorem foldl_min_le (l : List Int) (a : Int) :
    l.foldl min a ≤ a ∧ ∀ x ∈ l, l.foldl min a ≤ x := by
  induction l generalizing a with
  | nil => simp
  | cons b t ih =>
    simp only [List.foldl_cons, List.mem_cons]
    refine ⟨le_trans (ih (min a b)).1 (min_le_left a b), ?_⟩
    rintro x (rfl | hx)
    · exact le_trans (ih (min a x)).1 (min_le_right a x)
    · exact (ih (min a b)).2 x hx

theorem le_foldl_max (l : List Int) (a : Int) :
    a ≤ l.foldl max a ∧ ∀ x ∈ l, x ≤ l.foldl max a := by
  induction l generalizing a with
  | nil => simp
  | cons b t ih =>
    simp only [List.foldl_cons, List.mem_cons]
    refine ⟨le_trans (le_max_left a b) (ih (max a b)).1, ?_⟩
    rintro x (rfl | hx)
    · exact le_trans (le_max_right a x) (ih (max a x)).1
    · exact (ih (max a b)).2 x hx

theorem loSec_le_recSec (records : List (Int × List ℚ)) (r : Int × List ℚ)
    (hr : r ∈ records) : loSec records ≤ recSec r := by
  match records with
  | [] => cases hr
  | h :: t =>
    rcases List.mem_cons.mp hr with rfl | hrt
    · exact (foldl_min_le (t.map recSec) (recSec r)).1
    · exact (foldl_min_le (t.map recSec) (recSec h)).2 (recSec r)
        (List.mem_map_of_mem recSec hrt)

theorem recSec_le_hiSec (records : List (Int × List ℚ)) (r : Int × List ℚ)
    (hr : r ∈ records) : recSec r ≤ hiSec records := by
  match records with
  | [] => cases hr
  | h :: t =>
    rcases List.mem_cons.mp hr with rfl | hrt
    · exact (le_foldl_max (t.map recSec) (recSec r)).1
    · exact (le_foldl_max (t.map recSec) (recSec h)).2 (recSec r)
        (List.mem_map_of_mem recSec hrt)

theorem normalize1s_rows_of_ne_nil (fields : List String)
    (records : List (Int × List ℚ)) (hne : records ≠ []) :
    (normalize1s fields records).rows
      = (intRange (loSec records) (hiSec records)).map (binRow fields records) := by
  match records with
  | [] => exact absurd rfl hne
  | _ :: _ => rfl

theorem intRange_pairwise (lo hi : Int) :
    (intRange lo hi).Pairwise (fun a b => a < b) := by
  unfold intRange
  exact List.Pairwise.map _ (fun a b h => by omega) (List.pairwise_lt_range _)

/-- Claim C3 (amended): for nonempty records the normalizer output has
exactly one row per whole second of the closed range from the first to
the last occurring rounded second, in strictly increasing order (so the
index is unique and every occurring second has exactly one row); an
in-range second with no input rows is present as an all-NaN row — dropped
only later by the unified table's dropna over fully-empty rows — and is
never interpolated. -/
theorem normalize1s_one_row_per_grid_second (fields : List String)
    (records : List (Int × List ℚ)) (hne : records ≠ []) :
    ((normalize1s fields records).rows.map Prod.fst
        = intRange (loSec records) (hiSec records))
    ∧ ((normalize1s fields records).rows.map Prod.fst).Pairwise (fun a b => a < b)
    ∧ (∀ r ∈ records, recSec r ∈ (normalize1s fields records).rows.map Prod.fst)
    ∧ (∀ row ∈ (normalize1s fields records).rows,
        records.filter (fun r => recSec r == row.1) = [] →
          row.2 = fields.map (fun _ => none)) := by
  have hrows := normalize1s_rows_of_ne_nil fields records hne
  have hfst : (normalize1s fields records).rows.map Prod.fst
      = intRange (loSec records) (hiSec records) := by
    rw [hrows, List.map_map]
    have hcomp : Prod.fst ∘ binRow fields records = id := by
      funext s
      rfl
    rw [hcomp, List.map_id]
  refine ⟨hfst, ?_, ?_, ?_⟩
  · rw [hfst]
    exact intRange_pairwise _ _
  · intro r hr
    rw [hfst, mem_intRange]
    exact ⟨loSec_le_recSec records r hr, recSec_le_hiSec records r hr⟩
  · intro row hrow hfilt
    rw [hrows] at hrow
    rcases List.mem_map.mp hrow with ⟨s, hs, rfl⟩
    have hfilt2 : records.filter (fun r => recSec r == s) = [] := hfilt
    show (if (records.filter (fun r => recSec r == s)).isEmpty
            then fields.map (fun _ => none)
            else (List.range fields.length).map
              (fun i => some (bucketMean (records.filter (fun r => recSec r == s)) i)))
        = fields.map (fun _ => none)
    rw [hfilt2]
    rfl

/-- Concrete instantiation of `normalize1s_one_row_per_grid_second`. -/
theorem normalize1s_one_row_per_grid_second_check :
    (normalize1s ["pressure"]
        [((0 : Int), [(1 : ℚ)]), ((2000000 : Int), [(3 : ℚ)])]).rows.map Prod.fst
      = intRange (loSec [((0 : Int), [(1 : ℚ)]), ((2000000 : Int), [(3 : ℚ)])])
          (hiSec [((0 : Int), [(1 : ℚ)]), ((2000000 : Int), [(3 : ℚ)])]) :=
  (normalize1s_one_row_per_grid_second ["pressure"]
    [((0 : Int), [(1 : ℚ)]), ((2000000 : Int), [(3 : ℚ)])] (by decide)).1

theorem rhe_intCast (k : Int) : rhe (k : ℚ) = k := by
  unfold rhe
  rw [Int.floor_intCast]
  norm_num

theorem recSec_scaled (k : Int) (vs : List ℚ) : recSec (1000000 * k, vs) = k := by
  show rhe (((1000000 * k : Int) : ℚ) / 1000000) = k
  have h : ((1000000 * k : Int) : ℚ) / 1000000 = (k : ℚ) := by
    push_cast
    ring_nf
  rw [h, rhe_intCast]

theorem binRow_fst (fields : List String) (records : List (Int × List ℚ)) (s : Int) :
    (binRow fields records s).1 = s := rfl

theorem find?_map_fst (l : List Int) (f : Int → Int × List (Option ℚ)) (s : Int)
    (hfst : ∀ x, (f x).1 = x) (hnd : l.Pairwise (fun a b => a < b)) (hs : s ∈ l) :
    (l.map f).find? (fun r => r.1 == s) = some (f s) := by
  induction l with
  | nil => cases hs
  | cons a t ih =>
    rcases List.mem_cons.mp hs with rfl | hst
    · have hcond : (((f s).1 == s) = true) := by
        rw [hfst]
        exact beq_self_eq_true s
      rw [List.map_cons]
      exact List.find?_cons_of_pos _ hcond
    · have ha : a < s := (List.pairwise_cons.mp hnd).1 s hst
      have hcond : ¬ (((f a).1 == s) = true) := by
        rw [hfst]
        simp only [beq_iff_eq]
        omega
      rw [List.map_cons]
      have hstep : List.find? (fun r => r.1 == s) (f a :: List.map f t)
          = List.find? (fun r => r.1 == s) (List.map f t) :=
        List.find?_cons_of_neg _ hcond
      rw [hstep]
      exact ih (List.pairwise_cons.mp hnd).2 hst

theorem getD_map_range (n i : Nat) (hi : i < n) (g : Nat → Option ℚ) :
    ((List.range n).map g).getD i none = g i := by
  rw [List.getD_eq_getElem?_getD, List.getElem?_map, List.getElem?_range hi]
  rfl

theorem findIdx?_go_nodup (l : List String) (i : Nat) (hi : i < l.length)
    (hnd : l.Nodup) (k : Nat) :
    List.findIdx? (fun c => c == l.get ⟨i, hi⟩) l k = some (k + i) := by
  induction l generalizing i k with
  | nil => exact absurd hi (Nat.not_lt_zero i)
  | cons a t ih =>
    match i with
    | 0 =>
      have hc : ((a == (a :: t).get ⟨0, hi⟩) = true) := beq_self_eq_true a
      rw [List.findIdx?_cons, if_pos hc]
      rfl
    | Nat.succ j =>
      have hj : j < t.length := Nat.lt_of_succ_lt_succ hi
      have hget : (a :: t).get ⟨j + 1, hi⟩ = t.get ⟨j, hj⟩ := rfl
      have hmem : t.get ⟨j, hj⟩ ∈ t := List.get_mem t j hj
      have hne2 : ¬ ((a == (a :: t).get ⟨j + 1, hi⟩) = true) := by
        rw [hget]
        simp only [beq_iff_eq]
        intro hcontra
        exact (List.nodup_cons.mp hnd).1 (hcontra ▸ hmem)
      rw [List.findIdx?_cons, if_neg hne2, hget]
      rw [ih j hj (List.nodup_cons.mp hnd).2 (k + 1)]
      simp only [Option.some.injEq]
      omega

theorem findIdx?_get_nodup (l : List String) (i : Nat) (hi : i < l.length)
    (hnd : l.Nodup) :
    l.findIdx? (fun c => c == l.get ⟨i, hi⟩) = some i := by
  have h := findIdx?_go_nodup l i hi hnd 0
  simpa using h

theorem normalize1s_cols (fields : List String) (records : List (Int × List ℚ)) :
    (normalize1s fields records).cols = fields := by
  match records with
  | [] => rfl
  | _ :: _ => rfl

/-- Claim C6: the normalizer divides each raw integer timestamp by the
unit scale 1,000,000 (line 26) and rounds the resulting timestamp to the
nearest whole second with ties broken half-to-even (line 30): `rhe`
differs from the exact scaled value by at most 1/2 and resolves exact
half ties toward the even integer; and at every rounded second whose
bucket of raw rows is nonempty — in particular every second holding more
than one raw row — the output cell of each field is the arithmetic mean
of that field over the bucket (line 32). -/
theorem normalize1s_scale_round_mean (fields : List String)
    (records : List (Int × List ℚ)) (s : Int) (i : Nat)
    (hnd : fields.Nodup) (hi : i < fields.length)
    (hocc : records.filter (fun r => recSec r == s) ≠ []) :
    valueAt (normalize1s fields records) s (fields.get ⟨i, hi⟩)
        = some (bucketMean (records.filter (fun r => recSec r == s)) i)
    ∧ (∀ r : Int × List ℚ, recSec r = rhe ((r.1 : ℚ) / 1000000))
    ∧ (∀ q : ℚ, |q - (rhe q : ℚ)| ≤ 1/2)
    ∧ (∀ z : Int, z % 2 = 0 → rhe ((z : ℚ) + 1/2) = z)
    ∧ (∀ z : Int, z % 2 = 1 → rhe ((z : ℚ) + 1/2) = z + 1) := by
  refine ⟨?_, fun r => rfl, ?_, ?_, ?_⟩
  · have hne : records ≠ [] := by
      intro h
      rw [h] at hocc
      exact hocc rfl
    obtain ⟨r0, hr0⟩ := List.exists_mem_of_ne_nil _ hocc
    have hr0m := List.mem_filter.mp hr0
    have hr0s : recSec r0 = s := by
      have := hr0m.2
      simpa using this
    have hsmem : s ∈ intRange (loSec records) (hiSec records) := by
      rw [mem_intRange]
      constructor
      · rw [← hr0s]
        exact loSec_le_recSec records r0 hr0m.1
      · rw [← hr0s]
        exact recSec_le_hiSec records r0 hr0m.1
    have hrows := normalize1s_rows_of_ne_nil fields records hne
    have hfind : fields.findIdx? (fun c => c == fields.get ⟨i, hi⟩) = some i :=
      findIdx?_get_nodup fields i hi hnd
    have hrl : rowLookup (normalize1s fields records) s
        = some ((binRow fields records s).2) := by
      unfold rowLookup
      rw [hrows, find?_map_fst _ _ s (binRow_fst fields records)
        (intRange_pairwise _ _) hsmem]
      rfl
    have hbne : ((records.filter (fun r => recSec r == s)).isEmpty = false) := by
      cases hX : records.filter (fun r => recSec r == s) with
      | nil => exact absurd hX hocc
      | cons a t => rfl
    have hbin : (binRow fields records s).2
        = (List.range fields.length).map
            (fun j => some (bucketMean (records.filter (fun r => recSec r == s)) j)) := by
      show (if (records.filter (fun r => recSec r == s)).isEmpty
              then fields.map (fun _ => none)
              else (List.range fields.length).map
                (fun j => some (bucketMean (records.filter (fun r => recSec r == s)) j)))
          = (List.range fields.length).map
              (fun j => some (bucketMean (records.filter (fun r => recSec r == s)) j))
      rw [hbne]
      rfl
    have hval : valueAt (normalize1s fields records) s (fields.get ⟨i, hi⟩)
        = ((binRow fields records s).2).getD i none := by
      unfold valueAt
      rw [normalize1s_cols, hfind, hrl]
    rw [hval, hbin, getD_map_range fields.length i hi]
  · intro q
    have hf1 := Int.floor_le q
    have hf2 := Int.lt_floor_add_one q
    unfold rhe
    split_ifs with h1 h2 h3
    · rw [abs_le]
      constructor <;> linarith
    · rw [abs_le]
      push_cast
      constructor <;> linarith
    · rw [abs_le]
      constructor <;> linarith
    · rw [abs_le]
      push_cast
      constructor <;> linarith
  · intro z hz
    have hf : ⌊(z : ℚ) + 1/2⌋ = z := by
      rw [Int.floor_int_add]
      norm_num
    unfold rhe
    rw [hf]
    have harg : (z : ℚ) + 1/2 - (z : ℚ) = 1/2 := by ring
    rw [harg]
    rw [if_neg (by norm_num), if_neg (by norm_num), if_pos hz]
  · intro z hz
    have hf : ⌊(z : ℚ) + 1/2⌋ = z := by
      rw [Int.floor_int_add]
      norm_num
    unfold rhe
    rw [hf]
    have harg : (z : ℚ) + 1/2 - (z : ℚ) = 1/2 := by ring
    rw [harg]
    rw [if_neg (by norm_num), if_neg (by norm_num), if_neg (by omega)]

theorem recSec_zero (vs : List ℚ) : recSec (0, vs) = 0 := by
  show rhe (((0 : Int) : ℚ) / 1000000) = 0
  have h : ((0 : Int) : ℚ) / 1000000 = ((0 : Int) : ℚ) := by
    push_cast
    ring
  rw [h, rhe_intCast]

/-- Concrete instantiation of `normalize1s_scale_round_mean`: two raw rows
in the same second are aggregated to the arithmetic mean of that bucket. -/
theorem normalize1s_scale_round_mean_check :
    valueAt (normalize1s ["sht_humidity"] [((0 : Int), [(10 : ℚ)]), ((0 : Int), [(20 : ℚ)])])
        0 (["sht_humidity"].get ⟨0, by decide⟩)
      = some (bucketMean
          ([((0 : Int), [(10 : ℚ)]), ((0 : Int), [(20 : ℚ)])].filter
            (fun r => recSec r == 0)) 0) :=
  (normalize1s_scale_round_mean ["sht_humidity"]
    [((0 : Int), [(10 : ℚ)]), ((0 : Int), [(20 : ℚ)])] 0 0
    (by decide) (by decide) (by simp [recSec_zero])).1

/-- Claim C3 (counterexample): with raw records only at rounded seconds 0
and 2, the normalizer output has a row at second 1, a second occurring in
no input record — `resample('1s').mean()` materialises the full one-second
grid, so in-range seconds with no input rows are present (as all-NaN
rows), not absent. -/
theorem normalize1s_gap_row_present :
    ((normalize1s ["pressure"]
        [((1000000 * 0 : Int), [(1 : ℚ)]), ((1000000 * 2 : Int), [(3 : ℚ)])]).rows.map
        Prod.fst = [0, 1, 2])
    ∧ ([((1000000 * 0 : Int), [(1 : ℚ)]), ((1000000 * 2 : Int), [(3 : ℚ)])].map recSec
        = [0, 2])
    ∧ rowLookup (normalize1s ["pressure"]
        [((1000000 * 0 : Int), [(1 : ℚ)]), ((1000000 * 2 : Int), [(3 : ℚ)])]) 1
        = some [none] := by
  have h0 : recSec ((1000000 * 0 : Int), [(1 : ℚ)]) = 0 := recSec_scaled 0 _
  have h2 : recSec ((1000000 * 2 : Int), [(3 : ℚ)]) = 2 := recSec_scaled 2 _
  have hne : [((1000000 * 0 : Int), [(1 : ℚ)]), ((1000000 * 2 : Int), [(3 : ℚ)])] ≠ [] := by
    exact List.cons_ne_nil _ _
  have hrows := normalize1s_rows_of_ne_nil ["pressure"]
    [((1000000 * 0 : Int), [(1 : ℚ)]), ((1000000 * 2 : Int), [(3 : ℚ)])] hne
  have hlo : loSec [((1000000 * 0 : Int), [(1 : ℚ)]), ((1000000 * 2 : Int), [(3 : ℚ)])] = 0 := by
    show ([((1000000 * 2 : Int), [(3 : ℚ)])].map recSec).foldl min
        (recSec ((1000000 * 0 : Int), [(1 : ℚ)])) = 0
    rw [List.map_cons, List.map_nil, h0, h2]
    decide
  have hhi : hiSec [((1000000 * 0 : Int), [(1 : ℚ)]), ((1000000 * 2 : Int), [(3 : ℚ)])] = 2 := by
    show ([((1000000 * 2 : Int), [(3 : ℚ)])].map recSec).foldl max
        (recSec ((1000000 * 0 : Int), [(1 : ℚ)])) = 2
    rw [List.map_cons, List.map_nil, h0, h2]
    decide
  have hrange : intRange 0 2 = [0, 1, 2] := by decide
  have hcomp : Prod.fst ∘ binRow ["pressure"]
      [((1000000 * 0 : Int), [(1 : ℚ)]), ((1000000 * 2 : Int), [(3 : ℚ)])] = id := by
    funext x
    rfl
  refine ⟨?_, ?_, ?_⟩
  · rw [hrows, List.map_map, hcomp, List.map_id, hlo, hhi, hrange]
  · rw [List.map_cons, List.map_cons, List.map_nil, h0, h2]
  · unfold rowLookup
    rw [hrows, hlo, hhi, hrange]
    rw [find?_map_fst [0, 1, 2] _ 1 (binRow_fst _ _) (by decide) (by decide)]
    have hc1 : ¬ ((recSec ((1000000 * 0 : Int), [(1 : ℚ)]) == 1) = true) := by
      rw [h0]
      decide
    have hc2 : ¬ ((recSec ((1000000 * 2 : Int), [(3 : ℚ)]) == 1) = true) := by
      rw [h2]
      decide
    have hstep1 : [((1000000 * 0 : Int), [(1 : ℚ)]), ((1000000 * 2 : Int), [(3 : ℚ)])].filter
        (fun r => recSec r == 1)
        = [((1000000 * 2 : Int), [(3 : ℚ)])].filter (fun r => recSec r == 1) :=
      List.filter_cons_of_neg hc1
    have hstep2 : [((1000000 * 2 : Int), [(3 : ℚ)])].filter (fun r => recSec r == 1)
        = ([] : List (Int × List ℚ)).filter (fun r => recSec r == 1) :=
      List.filter_cons_of_neg hc2
    have hf : [((1000000 * 0 : Int), [(1 : ℚ)]), ((1000000 * 2 : Int), [(3 : ℚ)])].filter
        (fun r => recSec r == 1) = [] := by
      rw [hstep1, hstep2, List.filter_nil]
    have hbin : (binRow ["pressure"]
        [((1000000 * 0 : Int), [(1 : ℚ)]), ((1000000 * 2 : Int), [(3 : ℚ)])] 1).2 = [none] := by
      show (if ([((1000000 * 0 : Int), [(1 : ℚ)]), ((1000000 * 2 : Int), [(3 : ℚ)])].filter
                (fun r => recSec r == 1)).isEmpty
              then ["pressure"].map (fun _ => none)
              else (List.range (["pressure"].length)).map
                (fun j => some (bucketMean
                  ([((1000000 * 0 : Int), [(1 : ℚ)]), ((1000000 * 2 : Int), [(3 : ℚ)])].filter
                    (fun r => recSec r == 1)) j)))
          = [none]
      rw [hf]
      rfl
    show some ((binRow ["pressure"]
        [((1000000 * 0 : Int), [(1 : ℚ)]), ((1000000 * 2 : Int), [(3 : ℚ)])] 1).2)
      = some [none]
    rw [hbin]

theorem arctan2_mem_Ioc (y x : ℝ) : arctan2 y x ∈ Set.Ioc (-Real.pi) Real.pi := by
  have hpi := Real.pi_pos
  unfold arctan2
  split_ifs with h1 h2 h3 h4 h5
  · constructor
    · linarith [Real.neg_pi_div_two_lt_arctan (y / x)]
    · linarith [Real.arctan_lt_pi_div_two (y / x)]
  · have hq : y / x ≤ 0 := div_nonpos_iff.mpr (Or.inl ⟨h3, le_of_lt h2⟩)
    have ha : Real.arctan (y / x) ≤ 0 := by
      have hmono := Real.arctan_strictMono.monotone hq
      rwa [Real.arctan_zero] at hmono
    constructor
    · linarith [Real.neg_pi_div_two_lt_arctan (y / x)]
    · linarith
  · have hy : y < 0 := lt_of_not_ge h3
    have hq : 0 < y / x := div_pos_iff.mpr (Or.inr ⟨hy, h2⟩)
    have ha : 0 < Real.arctan (y / x) := by
      have hmono := Real.arctan_strictMono hq
      rwa [Real.arctan_zero] at hmono
    constructor
    · linarith
    · linarith [Real.arctan_lt_pi_div_two (y / x)]
  · constructor
    · linarith
    · linarith
  · constructor
    · linarith
    · linarith
  · constructor
    · linarith
    · linarith

/-- Claim C7: `wind_magnitude` is the Euclidean norm sqrt(north² + east²)
of the wind components, hence nonnegative for every input, and
`wind_direction` is atan2(east, north) converted to degrees, with range
(-180, 180] — the signed convention is kept, not a 0-360 compass bearing
(for example the direction is -90 for north = 0, east = -1). -/
theorem wind_magnitude_direction_formulas (north east : ℝ) :
    wind_magnitude north east = Real.sqrt (north ^ 2 + east ^ 2)
    ∧ wind_magnitude north east = Complex.abs ⟨north, east⟩
    ∧ 0 ≤ wind_magnitude north east
    ∧ wind_direction north east ∈ Set.Ioc (-180 : ℝ) 180
    ∧ wind_direction 0 (-1) = -90 := by
  have hpi := Real.pi_pos
  refine ⟨rfl, ?_, Real.sqrt_nonneg _, ?_, ?_⟩
  · unfold wind_magnitude
    rw [Complex.abs_apply, Complex.normSq_mk]
    congr 1
    ring
  · have ha := arctan2_mem_Ioc east north
    unfold wind_direction
    have hrpos : (0 : ℝ) < 180 / Real.pi := by positivity
    have h180 : Real.pi * (180 / Real.pi) = 180 := by
      rw [mul_comm]
      exact div_mul_cancel₀ 180 Real.pi_ne_zero
    constructor
    · have h1 : -Real.pi * (180 / Real.pi) < arctan2 east north * (180 / Real.pi) :=
        mul_lt_mul_of_pos_right ha.1 hrpos
      have h2 : -Real.pi * (180 / Real.pi) = -180 := by
        rw [neg_mul, h180]
      linarith
    · have h1 : arctan2 east north * (180 / Real.pi) ≤ Real.pi * (180 / Real.pi) :=
        mul_le_mul_of_nonneg_right ha.2 (le_of_lt hrpos)
      linarith
  · have hval : arctan2 (-1 : ℝ) 0 = -(Real.pi / 2) := by
      unfold arctan2
      norm_num
    unfold wind_direction
    rw [hval]
    field_simp
    ring

theorem vmul_fin_zero (u : RVal) :
    vmul u (RVal.fin 0) = RVal.nan ∨ vmul u (RVal.fin 0) = RVal.fin 0 := by
  cases u with
  | nan => left; rfl
  | pinf =>
    left
    show (if (0 : ℚ) < 0 then RVal.pinf else if (0 : ℚ) < 0 then RVal.ninf else RVal.nan)
        = RVal.nan
    norm_num
  | ninf =>
    left
    show (if (0 : ℚ) < 0 then RVal.ninf else if (0 : ℚ) < 0 then RVal.pinf else RVal.nan)
        = RVal.nan
    norm_num
  | fin a =>
    right
    show RVal.fin (a * 0) = RVal.fin 0
    rw [mul_zero]

theorem dewpoint_tail_nan (flog : ℚ → RVal) (e : RVal)
    (he : e = RVal.nan ∨ e = RVal.fin 0) :
    vdiv (vmul (RVal.fin (487/2)) (vlog flog (vdiv e (RVal.fin (6112/1000)))))
      (vsub (RVal.fin (1767/100)) (vlog flog (vdiv e (RVal.fin (6112/1000)))))
      = RVal.nan := by
  rcases he with rfl | rfl
  · rfl
  · have h0 : vdiv (RVal.fin 0) (RVal.fin (6112/1000)) = RVal.fin 0 := by
      show (if (6112/1000 : ℚ) = 0
          then (if (0 : ℚ) = 0 then RVal.nan
                else if (0 : ℚ) < 0 then RVal.pinf else RVal.ninf)
          else RVal.fin (0 / (6112/1000))) = RVal.fin 0
      norm_num
    rw [h0]
    have hlg : vlog flog (RVal.fin 0) = RVal.ninf := by
      show (if (0 : ℚ) < 0 then flog 0 else if (0 : ℚ) = 0 then RVal.ninf else RVal.nan)
          = RVal.ninf
      norm_num
    rw [hlg]
    have hm : vmul (RVal.fin (487/2)) RVal.ninf = RVal.ninf := by
      show (if (0 : ℚ) < 487/2 then RVal.ninf else if (487/2 : ℚ) < 0 then RVal.pinf
          else RVal.nan) = RVal.ninf
      norm_num
    rw [hm]
    rfl

theorem dewpoint_zero_humidity (fexp flog : ℚ → RVal) (x : ℚ) :
    dewpoint fexp flog (RVal.fin 0) (RVal.fin x) = RVal.nan := by
  simp only [dewpoint]
  have h1 : vdiv (RVal.fin 0) (RVal.fin 100) = RVal.fin 0 := by
    show (if (100 : ℚ) = 0
        then (if (0 : ℚ) = 0 then RVal.nan
              else if (0 : ℚ) < 0 then RVal.pinf else RVal.ninf)
        else RVal.fin (0 / 100)) = RVal.fin 0
    norm_num
  rw [h1]
  exact dewpoint_tail_nan flog _
    (vmul_fin_zero (vmul (RVal.fin (6112/1000))
      (vexp fexp (vdiv (vmul (RVal.fin (1767/100)) (RVal.fin x))
        (vadd (RVal.fin x) (RVal.fin (487/2)))))))

theorem dewpoint_nan_inputs (fexp flog : ℚ → RVal) :
    dewpoint fexp flog RVal.nan RVal.nan = RVal.nan := rfl

/-- Claim C1: in every table, a row whose humidity cell is 0 while its
temperature cell is a finite number gets NaN — the missing-value marker
of pandas, not negative infinity and not an exception (the computation is
total) — as its dewpoint: vapor pressure is 0, `np.log` of 0 is -inf
(numpy warns but does not raise), and (243.5 * -inf)/(17.67 - -inf)
= -inf/+inf = NaN; and every row of the dewpoint column is the rowwise
function of that row's own inputs alone, so all other rows are
unaffected. This holds for every behaviour `fexp`/`flog` of the finite
branches of exp and log (overflow included). -/
theorem dewpointCol_zero_humidity (fexp flog : ℚ → RVal)
    (rows : List (RVal × RVal)) (i : Nat) (hi : i < rows.length)
    (hhum : (rows.get ⟨i, hi⟩).1 = RVal.fin 0)
    (htemp : ∃ x, (rows.get ⟨i, hi⟩).2 = RVal.fin x) :
    isNA ((dewpointCol fexp flog rows).getD i RVal.nan) = true
    ∧ (dewpointCol fexp flog rows).getD i RVal.nan ≠ RVal.ninf
    ∧ (∀ j, (dewpointCol fexp flog rows).getD j RVal.nan
        = dewpoint fexp flog ((rows.getD j (RVal.nan, RVal.nan)).1)
            ((rows.getD j (RVal.nan, RVal.nan)).2)) := by
  have hmap : ∀ j, (dewpointCol fexp flog rows).getD j RVal.nan
      = dewpoint fexp flog ((rows.getD j (RVal.nan, RVal.nan)).1)
          ((rows.getD j (RVal.nan, RVal.nan)).2) := by
    intro j
    show (rows.map (fun r => dewpoint fexp flog r.1 r.2)).getD j RVal.nan
        = dewpoint fexp flog ((rows.getD j (RVal.nan, RVal.nan)).1)
            ((rows.getD j (RVal.nan, RVal.nan)).2)
    rw [List.getD_eq_getElem?_getD, List.getElem?_map,
      List.getD_eq_getElem?_getD]
    rcases hx : rows[j]? with _ | r
    · rfl
    · rfl
  have hval : (dewpointCol fexp flog rows).getD i RVal.nan = RVal.nan := by
    obtain ⟨x, hx⟩ := htemp
    have hgd : rows.getD i (RVal.nan, RVal.nan) = rows.get ⟨i, hi⟩ := by
      rw [List.getD_eq_getElem?_getD, List.getElem?_eq_getElem hi]
      rfl
    rw [hmap i, hgd, hhum, hx]
    exact dewpoint_zero_humidity fexp flog x
  refine ⟨?_, ?_, hmap⟩
  · rw [hval]
    rfl
  · rw [hval]
    intro hcontra
    cases hcontra

/-- Concrete instantiation of `dewpointCol_zero_humidity`: in a two-row
table whose second row has humidity 0 and temperature 20, the second
dewpoint cell is NaN (missing). -/
theorem dewpointCol_zero_humidity_check :
    isNA ((dewpointCol (fun _ => RVal.fin 1) (fun _ => RVal.fin 0)
        [(RVal.fin 50, RVal.fin 10), (RVal.fin 0, RVal.fin 20)]).getD 1 RVal.nan)
      = true :=
  (dewpointCol_zero_humidity (fun _ => RVal.fin 1) (fun _ => RVal.fin 0)
    [(RVal.fin 50, RVal.fin 10), (RVal.fin 0, RVal.fin 20)] 1 (by decide)
    rfl ⟨20, rfl⟩).1

theorem foldlM_no_match (log : List ULogStream) :
    ∀ (sel : List (String × List String)),
    (∀ e ∈ sel, ∀ st ∈ log, st.name ≠ e.1) →
    ∀ (w : List String) (t : Table),
    sel.foldlM (topicStep log) (w, t) = Except.ok (w ++ sel.map Prod.fst, t) := by
  intro sel
  induction sel with
  | nil =>
    intro _ w t
    show Except.ok (w, t) = Except.ok (w ++ [], t)
    rw [List.append_nil]
  | cons e rest ih =>
    intro h w t
    have hfind : log.find? (fun m => m.name == e.1) = none := by
      rw [List.find?_eq_none]
      intro st hst
      simp only [beq_iff_eq]
      exact h e (List.mem_cons_self e rest) st hst
    have hstep : topicStep log (w, t) e = Except.ok (w ++ [e.1], t) := by
      unfold topicStep
      rw [hfind]
    rw [List.foldlM_cons, hstep]
    show rest.foldlM (topicStep log) (w ++ [e.1], t)
        = Except.ok (w ++ (e :: rest).map Prod.fst, t)
    rw [ih (fun e2 he2 => h e2 (List.mem_cons_of_mem _ he2)) (w ++ [e.1]) t]
    simp

/-- Claim C10: when no configured topic matches any stream of the log,
`process_ulog_to_dataframe` raises nothing and returns the empty table —
no rows, no columns — together with one warning per configured topic. -/
theorem process_no_topic_matches (log : List ULogStream)
    (sel : List (String × List String))
    (h : ∀ e ∈ sel, ∀ st ∈ log, st.name ≠ e.1) :
    process_ulog_to_dataframe log sel
      = Except.ok (sel.map Prod.fst, emptyTable) := by
  unfold process_ulog_to_dataframe
  rw [foldlM_no_match log sel h [] emptyTable]
  show Except.ok (([] : List String) ++ sel.map Prod.fst, dropAllNa emptyTable)
      = Except.ok (sel.map Prod.fst, emptyTable)
  rw [List.nil_append]
  rfl

/-- Concrete instantiation of `process_no_topic_matches`. -/
theorem process_no_topic_matches_check :
    process_ulog_to_dataframe
        [⟨"sensor_baro", ["pressure"], [(0, [5])]⟩]
        [("wind", ["windspeed_north", "windspeed_east"])]
      = Except.ok (["wind"], emptyTable) :=
  process_no_topic_matches
    [⟨"sensor_baro", ["pressure"], [(0, [5])]⟩]
    [("wind", ["windspeed_north", "windspeed_east"])]
    (by decide)

theorem foldlM_missing_field (log : List ULogStream) (topic : String)
    (fs : List String) (st : ULogStream) (f : String)
    (hfind : log.find? (fun m => m.name == topic) = some st)
    (hf : f ∈ fs) (hnotin : f ∉ st.schema) :
    ∀ (sel : List (String × List String)), (topic, fs) ∈ sel →
    ∀ acc, ∃ t2 f2, sel.foldlM (topicStep log) acc
      = Except.error (PErr.fieldNotFound t2 f2) := by
  intro sel
  induction sel with
  | nil =>
    intro hmem
    cases hmem
  | cons e rest ih =>
    intro hmem acc
    rcases List.mem_cons.mp hmem with heq | hmem2
    · subst heq
      have hp : (!(st.schema.contains f)) = true := by
        simp [hnotin]
      have h1 : (fs.find? (fun c => !(st.schema.contains c))).isSome :=
        List.find?_isSome.mpr ⟨f, hf, hp⟩
      obtain ⟨c, hc⟩ := Option.isSome_iff_exists.mp h1
      have hstep : topicStep log acc (topic, fs)
          = Except.error (PErr.fieldNotFound topic c) := by
        simp only [topicStep, hfind, hc]
      refine ⟨topic, c, ?_⟩
      rw [List.foldlM_cons, hstep]
      rfl
    · cases hstep : topicStep log acc e with
      | error er =>
        cases er with
        | fieldNotFound a b =>
          refine ⟨a, b, ?_⟩
          rw [List.foldlM_cons, hstep]
          rfl
      | ok acc2 =>
        obtain ⟨t2, f2, hrest⟩ := ih hmem2 acc2
        refine ⟨t2, f2, ?_⟩
        rw [List.foldlM_cons, hstep]
        exact hrest

/-- Claim C5: when some configured topic's matched stream (the first
stream with exactly that name, as `next(...)` selects it; ULog instances
of one topic share one message format) lacks a configured field in its
schema, extraction fails hard with the FieldNotFound error (the pandas
KeyError of line 25): the per-topic handler catches only StopIteration,
so the error propagates out of `process_ulog_to_dataframe` (logged and
re-raised at lines 43-45) and aborts the run — a hard failure, not a
warning, and no partial UnifiedTable is returned. -/
theorem process_missing_field_fails (log : List ULogStream)
    (sel : List (String × List String)) (topic : String) (fs : List String)
    (st : ULogStream) (f : String)
    (hmem : (topic, fs) ∈ sel)
    (hfind : log.find? (fun m => m.name == topic) = some st)
    (hf : f ∈ fs) (hnotin : f ∉ st.schema) :
    exceptFailed (process_ulog_to_dataframe log sel) = true
    ∧ ∃ t2 f2, process_ulog_to_dataframe log sel
        = Except.error (PErr.fieldNotFound t2 f2) := by
  obtain ⟨t2, f2, hfold⟩ :=
    foldlM_missing_field log topic fs st f hfind hf hnotin sel hmem ([], emptyTable)
  have hproc : process_ulog_to_dataframe log sel
      = Except.error (PErr.fieldNotFound t2 f2) := by
    unfold process_ulog_to_dataframe
    rw [hfold]
    rfl
  refine ⟨?_, t2, f2, hproc⟩
  rw [hproc]
  rfl

/-- Concrete instantiation of `process_missing_field_fails`: the matched
stream lacks the configured field `therm_temp_celcius`, so the run
aborts. -/
theorem process_missing_field_fails_check :
    exceptFailed (process_ulog_to_dataframe
        [⟨"todd_sensor", ["sht_humidity"], [(0, [50])]⟩]
        [("todd_sensor", ["sht_humidity", "therm_temp_celcius"])]) = true :=
  (process_missing_field_fails
    [⟨"todd_sensor", ["sht_humidity"], [(0, [50])]⟩]
    [("todd_sensor", ["sht_humidity", "therm_temp_celcius"])]
    "todd_sensor" ["sht_humidity", "therm_temp_celcius"]
    ⟨"todd_sensor", ["sht_humidity"], [(0, [50])]⟩ "therm_temp_celcius"
    (by decide) (by decide) (by decide) (by decide)).1

theorem foldlM_warnings_shift (log : List ULogStream) :
    ∀ (sel : List (String × List String)) (w : List String) (t : Table),
    sel.foldlM (topicStep log) (w, t)
      = (sel.foldlM (topicStep log) ([], t)).map (fun a => (w ++ a.1, a.2)) := by
  intro sel
  induction sel with
  | nil =>
    intro w t
    show Except.ok (w, t) = Except.ok (w ++ [], t)
    rw [List.append_nil]
  | cons e rest ih =>
    intro w t
    rw [List.foldlM_cons, List.foldlM_cons]
    cases hfind : log.find? (fun m => m.name == e.1) with
    | none =>
      have h1 : topicStep log (w, t) e = Except.ok (w ++ [e.1], t) := by
        simp only [topicStep, hfind]
      have h2 : topicStep log ([], t) e = Except.ok ([e.1], t) := by
        simp only [topicStep, hfind, List.nil_append]
      rw [h1, h2]
      show rest.foldlM (topicStep log) (w ++ [e.1], t)
          = (rest.foldlM (topicStep log) ([e.1], t)).map (fun a => (w ++ a.1, a.2))
      rw [ih (w ++ [e.1]) t, ih [e.1] t]
      cases hres : rest.foldlM (topicStep log) ([], t) with
      | error er => rfl
      | ok a =>
        show Except.ok (w ++ [e.1] ++ a.1, a.2) = Except.ok (w ++ ([e.1] ++ a.1), a.2)
        rw [List.append_assoc]
    | some st =>
      cases hfs : e.2.find? (fun c => !(st.schema.contains c)) with
      | some c =>
        have h1 : topicStep log (w, t) e = Except.error (PErr.fieldNotFound e.1 c) := by
          simp only [topicStep, hfind, hfs]
        have h2 : topicStep log ([], t) e = Except.error (PErr.fieldNotFound e.1 c) := by
          simp only [topicStep, hfind, hfs]
        rw [h1, h2]
        rfl
      | none =>
        have h1 : topicStep log (w, t) e
            = Except.ok (w, mergeStep t (normalize1s e.2 (extractRecords st e.2))) := by
          simp only [topicStep, hfind, hfs]
        have h2 : topicStep log ([], t) e
            = Except.ok ([], mergeStep t (normalize1s e.2 (extractRecords st e.2))) := by
          simp only [topicStep, hfind, hfs]
        rw [h1, h2]
        show rest.foldlM (topicStep log)
            (w, mergeStep t (normalize1s e.2 (extractRecords st e.2)))
          = (rest.foldlM (topicStep log)
              ([], mergeStep t (normalize1s e.2 (extractRecords st e.2)))).map
            (fun a => (w ++ a.1, a.2))
        exact ih w _

theorem foldlM_cols_provenance (log : List ULogStream) :
    ∀ (sel : List (String × List String)) (acc res : List String × Table),
    sel.foldlM (topicStep log) acc = Except.ok res →
    ∀ f, f ∈ res.2.cols → f ∈ acc.2.cols ∨ ∃ e ∈ sel, f ∈ e.2 := by
  intro sel
  induction sel with
  | nil =>
    intro acc res h f hf
    have hacc : acc = res := Except.ok.inj h
    left
    rw [hacc]
    exact hf
  | cons e rest ih =>
    intro acc res h f hf
    rw [List.foldlM_cons] at h
    cases hfind : log.find? (fun m => m.name == e.1) with
    | none =>
      have hstep : topicStep log acc e = Except.ok (acc.1 ++ [e.1], acc.2) := by
        simp only [topicStep, hfind]
      rw [hstep] at h
      rcases ih (acc.1 ++ [e.1], acc.2) res h f hf with hin | ⟨e2, he2, hfe2⟩
      · left
        exact hin
      · right
        exact ⟨e2, List.mem_cons_of_mem _ he2, hfe2⟩
    | some st =>
      cases hfs : e.2.find? (fun c => !(st.schema.contains c)) with
      | some c =>
        have hstep : topicStep log acc e = Except.error (PErr.fieldNotFound e.1 c) := by
          simp only [topicStep, hfind, hfs]
        rw [hstep] at h
        cases h
      | none =>
        have hstep : topicStep log acc e
            = Except.ok (acc.1, mergeStep acc.2 (normalize1s e.2 (extractRecords st e.2))) := by
          simp only [topicStep, hfind, hfs]
        rw [hstep] at h
        rcases ih _ res h f hf with hin | ⟨e2, he2, hfe2⟩
        · unfold mergeStep at hin
          by_cases hemp : acc.2.isEmpty = true
        
          · rw [if_pos hemp] at hin
            rw [normalize1s_cols] at hin
            right
            exact ⟨e, List.mem_cons_self _ _, hin⟩
          · rw [if_neg hemp] at hin
            have hjc : (joinTables acc.2 (normalize1s e.2 (extractRecords st e.2))).cols
                = acc.2.cols ++ (normalize1s e.2 (extractRecords st e.2)).cols := rfl
            rw [hjc] at hin
            rcases List.mem_append.mp hin with h1 | h1
            · left
              exact h1
            · rw [normalize1s_cols] at h1
              right
              exact ⟨e, List.mem_cons_self _ _, h1⟩
        · right
          exact ⟨e2, List.mem_cons_of_mem _ he2, hfe2⟩

/-- Claim C4: a configured topic with no exactly-matching stream raises
nothing: the StopIteration from `next` is caught (lines 38-39), the topic
is recorded as a warning, its columns never reach the UnifiedTable (when
its fields belong to no other configured topic), and the remaining topics
are extracted, normalized and merged exactly as they would be without the
missing topic — same final table, same other warnings. -/
theorem process_missing_topic_graceful (log : List ULogStream)
    (pre post : List (String × List String)) (topic : String) (fs : List String)
    (habsent : ∀ st ∈ log, st.name ≠ topic)
    (w0 : List String) (tbl : Table)
    (hrest : process_ulog_to_dataframe log (pre ++ post) = Except.ok (w0, tbl)) :
    (∃ w1 w2, w0 = w1 ++ w2
      ∧ process_ulog_to_dataframe log (pre ++ (topic, fs) :: post)
          = Except.ok (w1 ++ topic :: w2, tbl))
    ∧ (∀ f, f ∈ fs → (∀ e ∈ pre ++ post, f ∉ e.2) → f ∉ tbl.cols) := by
  have hfindT : log.find? (fun m => m.name == topic) = none := by
    rw [List.find?_eq_none]
    intro st hst
    simp only [beq_iff_eq]
    exact habsent st hst
  constructor
  · cases hfoldpre : pre.foldlM (topicStep log) ([], emptyTable) with
    | error er =>
      have hbad : (pre ++ post).foldlM (topicStep log) ([], emptyTable)
          = Except.error er := by
        rw [List.foldlM_append, hfoldpre]
        rfl
      unfold process_ulog_to_dataframe at hrest
      rw [hbad] at hrest
      cases hrest
    | ok acc1 =>
      obtain ⟨w1, t1⟩ := acc1
      have hsplit : (pre ++ post).foldlM (topicStep log) ([], emptyTable)
          = post.foldlM (topicStep log) (w1, t1) := by
        rw [List.foldlM_append, hfoldpre]
        rfl
      unfold process_ulog_to_dataframe at hrest
      rw [hsplit, foldlM_warnings_shift log post w1 t1] at hrest
      cases hpost : post.foldlM (topicStep log) ([], t1) with
      | error er =>
        rw [hpost] at hrest
        cases hrest
      | ok b =>
        rw [hpost] at hrest
        have hpair : ((w1 ++ b.1, dropAllNa b.2) : List String × Table) = (w0, tbl) :=
          Except.ok.inj hrest
        have hw : w1 ++ b.1 = w0 := congrArg Prod.fst hpair
        have ht : dropAllNa b.2 = tbl := congrArg Prod.snd hpair
        refine ⟨w1, b.1, hw.symm, ?_⟩
        have hstepT : topicStep log (w1, t1) (topic, fs)
            = Except.ok (w1 ++ [topic], t1) := by
          simp only [topicStep, hfindT]
        unfold process_ulog_to_dataframe
        rw [List.foldlM_append, hfoldpre]
        show (((topic, fs) :: post).foldlM (topicStep log) (w1, t1)).map
            (fun a => (a.1, dropAllNa a.2)) = Except.ok (w1 ++ topic :: b.1, tbl)
        rw [List.foldlM_cons, hstepT]
        show (post.foldlM (topicStep log) (w1 ++ [topic], t1)).map
            (fun a => (a.1, dropAllNa a.2)) = Except.ok (w1 ++ topic :: b.1, tbl)
        rw [foldlM_warnings_shift log post (w1 ++ [topic]) t1, hpost]
        show Except.ok (w1 ++ [topic] ++ b.1, dropAllNa b.2)
            = Except.ok (w1 ++ topic :: b.1, tbl)
        rw [ht, List.append_assoc]
        rfl
  · intro f hffs hdisj hcontra
    cases hfold : (pre ++ post).foldlM (topicStep log) ([], emptyTable) with
    | error er =>
      unfold process_ulog_to_dataframe at hrest
      rw [hfold] at hrest
      cases hrest
    | ok a =>
      unfold process_ulog_to_dataframe at hrest
      rw [hfold] at hrest
      have hpair : ((a.1, dropAllNa a.2) : List String × Table) = (w0, tbl) :=
        Except.ok.inj hrest
      have ht : dropAllNa a.2 = tbl := congrArg Prod.snd hpair
      have hcols : f ∈ a.2.cols := by
        have : tbl.cols = a.2.cols := by
          rw [← ht]
          rfl
        rw [this] at hcontra
        exact hcontra
      rcases foldlM_cols_provenance log (pre ++ post) ([], emptyTable) a hfold f hcols
        with hin | ⟨e2, he2, hfe2⟩
      · cases hin
      · exact hdisj e2 he2 hfe2

/-- Concrete instantiation of `process_missing_topic_graceful`: with only
the absent topic configured, the pipeline returns the empty table and the
single warning, raising nothing, and the absent topic's column is not in
the result. -/
theorem process_missing_topic_graceful_check :
    process_ulog_to_dataframe [⟨"sensor_baro", ["pressure"], [(0, [5])]⟩]
        [("wind", ["windspeed_north"])]
      = Except.ok (["wind"], emptyTable)
    ∧ "windspeed_north" ∉ emptyTable.cols := by
  have h := process_missing_topic_graceful
    [⟨"sensor_baro", ["pressure"], [(0, [5])]⟩] [] [] "wind" ["windspeed_north"]
    (by decide) [] emptyTable rfl
  obtain ⟨⟨w1, w2, hw, hproc⟩, hcols⟩ := h
  constructor
  · have h1 : w1 = [] := (List.append_eq_nil.mp hw.symm).1
    have h2 : w2 = [] := (List.append_eq_nil.mp hw.symm).2
    rw [h1, h2] at hproc
    exact hproc
  · exact hcols "windspeed_north" (by decide) (by intro e he; cases he)

theorem mergeIdx_mem : ∀ (xs ys : List Int) (s : Int),
    s ∈ mergeIdx xs ys ↔ s ∈ xs ∨ s ∈ ys := by
  intro xs
  induction xs with
  | nil =>
    intro ys s
    simp [mergeIdx]
  | cons x xs ihx =>
    intro ys
    induction ys with
    | nil =>
      intro s
      simp [mergeIdx]
    | cons y ys ihy =>
      intro s
      simp only [mergeIdx]
      split_ifs with h1 h2
      · simp only [List.mem_cons, ihx (y :: ys) s]
        tauto
      · simp only [List.mem_cons, ihy s, List.mem_cons]
        tauto
      · have hxy : x = y := by omega
        subst hxy
        simp only [List.mem_cons, ihx ys s]
        tauto

theorem mergeIdx_sorted : ∀ (xs ys : List Int),
    xs.Pairwise (fun a b => a < b) → ys.Pairwise (fun a b => a < b) →
    (mergeIdx xs ys).Pairwise (fun a b => a < b) := by
  intro xs
  induction xs with
  | nil =>
    intro ys _ hys
    simpa [mergeIdx] using hys
  | cons x xs ihx =>
    intro ys
    induction ys with
    | nil =>
      intro hxs _
      simpa [mergeIdx] using hxs
    | cons y ys ihy =>
      intro hxs hys
      have hxh := List.pairwise_cons.mp hxs
      have hyh := List.pairwise_cons.mp hys
      simp only [mergeIdx]
      split_ifs with h1 h2
      · refine List.pairwise_cons.mpr ⟨?_, ihx (y :: ys) hxh.2 hys⟩
        intro z hz
        rcases (mergeIdx_mem xs (y :: ys) z).mp hz with hzx | hzy
        · exact hxh.1 z hzx
        · rcases List.mem_cons.mp hzy with rfl | hzys
          · exact h1
          · exact lt_trans h1 (hyh.1 z hzys)
      · refine List.pairwise_cons.mpr ⟨?_, ihy hxs hyh.2⟩
        intro z hz
        rcases (mergeIdx_mem (x :: xs) ys z).mp hz with hzx | hzy
        · rcases List.mem_cons.mp hzx with rfl | hzxs
          · exact h2
          · exact lt_trans h2 (hxh.1 z hzxs)
        · exact hyh.1 z hzy
      · have hxy : x = y := by omega
        subst hxy
        refine List.pairwise_cons.mpr ⟨?_, ihx ys hxh.2 hyh.2⟩
        intro z hz
        rcases (mergeIdx_mem xs ys z).mp hz with hzx | hzy
        · exact hxh.1 z hzx
        · exact hyh.1 z hzy

theorem find?_map_fst_none (l : List Int) (f : Int → Int × List (Option ℚ)) (s : Int)
    (hfst : ∀ x, (f x).1 = x) (hs : s ∉ l) :
    (l.map f).find? (fun r => r.1 == s) = none := by
  induction l with
  | nil => rfl
  | cons a t ih =>
    have hne : a ≠ s := fun hcontra => hs (hcontra ▸ List.mem_cons_self a t)
    have hcond : ¬ (((f a).1 == s) = true) := by
      rw [hfst]
      simp only [beq_iff_eq]
      exact hne
    rw [List.map_cons]
    have hstep : List.find? (fun r => r.1 == s) (f a :: List.map f t)
        = List.find? (fun r => r.1 == s) (List.map f t) :=
      List.find?_cons_of_neg _ hcond
    rw [hstep]
    exact ih (fun hmem => hs (List.mem_cons_of_mem a hmem))

theorem rowLookup_eq_none (t : Table) (s : Int)
    (h : ∀ r ∈ t.rows, r.1 ≠ s) : rowLookup t s = none := by
  unfold rowLookup
  rw [List.find?_eq_none.mpr]
  · rfl
  · intro r hr
    simp only [beq_iff_eq]
    exact h r hr

theorem find?_key_of_mem_sorted (rows : List (Int × List (Option ℚ)))
    (s : Int) (vs : List (Option ℚ))
    (hsorted : rows.Pairwise (fun p q => p.1 < q.1))
    (hmem : (s, vs) ∈ rows) :
    rows.find? (fun r => r.1 == s) = some (s, vs) := by
  induction rows with
  | nil => cases hmem
  | cons a rest ih =>
    have hh := List.pairwise_cons.mp hsorted
    rcases List.mem_cons.mp hmem with rfl | hmem2
    · have hcond : (((s, vs).1 == s) = true) := beq_self_eq_true s
      exact List.find?_cons_of_pos _ hcond
    · have hlt : a.1 < s := hh.1 (s, vs) hmem2
      have hcond : ¬ ((a.1 == s) = true) := by
        simp only [beq_iff_eq]
        omega
      have hstep : List.find? (fun r => r.1 == s) (a :: rest)
          = List.find? (fun r => r.1 == s) rest :=
        List.find?_cons_of_neg _ hcond
      rw [hstep]
      exact ih hh.2 hmem2

theorem rowLookup_of_mem_sorted (t : Table) (s : Int) (vs : List (Option ℚ))
    (hsorted : t.rows.Pairwise (fun p q => p.1 < q.1))
    (hmem : (s, vs) ∈ t.rows) : rowLookup t s = some vs := by
  unfold rowLookup
  rw [find?_key_of_mem_sorted t.rows s vs hsorted hmem]
  rfl

theorem findIdx?_go_lt_length {p : String → Bool} :
    ∀ (l : List String) (k i : Nat), List.findIdx? p l k = some i → i < k + l.length := by
  intro l
  induction l with
  | nil =>
    intro k i h
    cases h
  | cons a t ih =>
    intro k i h
    rw [List.findIdx?_cons] at h
    by_cases hp : p a = true
    · rw [if_pos hp] at h
      have : k = i := Option.some.inj h
      subst this
      simp only [List.length_cons]
      omega
    · rw [if_neg hp] at h
      have := ih (k + 1) i h
      simp only [List.length_cons]
      omega

theorem findIdx?_lt_length {p : String → Bool} (l : List String) (i : Nat)
    (h : l.findIdx? p = some i) : i < l.length := by
  have := findIdx?_go_lt_length l 0 i h
  omega

theorem rowLookup_mem (t : Table) (s : Int) (vs : List (Option ℚ))
    (h : rowLookup t s = some vs) : (s, vs) ∈ t.rows := by
  unfold rowLookup at h
  cases hf : t.rows.find? (fun r => r.1 == s) with
  | none =>
    rw [hf] at h
    cases h
  | some r =>
    rw [hf] at h
    have hr1a := List.find?_some hf
    have hr1 : (r.1 == s) = true := hr1a
    have hmem : r ∈ t.rows := List.mem_of_find?_eq_some hf
    have hvs : vs = r.2 := by
      have h2 : some r.2 = some vs := h
      exact (Option.some.inj h2).symm
    have hr : r = (s, vs) := by
      have h1 : r.1 = s := by simpa using hr1
      rw [hvs, ← h1]
    rw [← hr]
    exact hmem

theorem valueAt_eq_of (t : Table) (s : Int) (f : String) (i : Nat)
    (vs : List (Option ℚ))
    (h1 : t.cols.findIdx? (fun c => c == f) = some i)
    (h2 : rowLookup t s = some vs) : valueAt t s f = vs.getD i none := by
  unfold valueAt
  rw [h1, h2]

theorem valueAt_none_of_col (t : Table) (s : Int) (f : String)
    (h : t.cols.findIdx? (fun c => c == f) = none) : valueAt t s f = none := by
  unfold valueAt
  rw [h]

theorem valueAt_none_of_row (t : Table) (s : Int) (f : String)
    (h : rowLookup t s = none) : valueAt t s f = none := by
  unfold valueAt
  rw [h]
  cases t.cols.findIdx? (fun c => c == f) <;> rfl

theorem rowLookup_joinTables_mem (a b : Table) (s : Int)
    (hm : (mergeIdx (a.rows.map Prod.fst) (b.rows.map Prod.fst)).Pairwise
      (fun p q => p < q))
    (hs : s ∈ mergeIdx (a.rows.map Prod.fst) (b.rows.map Prod.fst)) :
    rowLookup (joinTables a b) s = some ((joinRow a b s).2) := by
  unfold rowLookup
  show (((mergeIdx (a.rows.map Prod.fst) (b.rows.map Prod.fst)).map
      (joinRow a b)).find? (fun r => r.1 == s)).map Prod.snd
    = some ((joinRow a b s).2)
  rw [find?_map_fst _ _ s (fun x => rfl) hm hs]
  rfl

theorem rowLookup_joinTables_not_mem (a b : Table) (s : Int)
    (hs : s ∉ mergeIdx (a.rows.map Prod.fst) (b.rows.map Prod.fst)) :
    rowLookup (joinTables a b) s = none := by
  unfold rowLookup
  show (((mergeIdx (a.rows.map Prod.fst) (b.rows.map Prod.fst)).map
      (joinRow a b)).find? (fun r => r.1 == s)).map Prod.snd = none
  rw [find?_map_fst_none _ _ s (fun x => rfl) hs]
  rfl

theorem not_mem_idx_rowLookup (t : Table) (s : Int)
    (hs : s ∉ t.rows.map Prod.fst) : rowLookup t s = none := by
  apply rowLookup_eq_none
  intro r hr hcontra
  exact hs (hcontra ▸ List.mem_map_of_mem Prod.fst hr)

theorem rowPart_length (t : Table) (s : Int)
    (hl : ∀ r ∈ t.rows, r.2.length = t.cols.length) :
    ((rowLookup t s).getD (List.replicate t.cols.length none)).length
      = t.cols.length := by
  cases hr : rowLookup t s with
  | none => simp
  | some vs =>
    simp only [Option.getD_some]
    exact hl (s, vs) (rowLookup_mem t s vs hr)

theorem getD_replicate_none (n i : Nat) :
    (List.replicate n (none : Option ℚ)).getD i none = none := by
  rw [List.getD_eq_getElem?_getD, List.getElem?_replicate]
  split_ifs <;> rfl

theorem findIdx?_isSome_iff_mem (l : List String) (f : String) :
    (l.findIdx? (fun c => c == f)).isSome = true ↔ f ∈ l := by
  rw [List.findIdx?_isSome, List.any_eq_true]
  constructor
  · rintro ⟨c, hc, hceq⟩
    have hcf : c = f := by simpa using hceq
    rw [← hcf]
    exact hc
  · intro hf
    exact ⟨f, hf, beq_self_eq_true f⟩

theorem valueAt_joinTables (a b : Table)
    (hsa : a.rows.Pairwise (fun p q => p.1 < q.1))
    (hsb : b.rows.Pairwise (fun p q => p.1 < q.1))
    (hla : ∀ r ∈ a.rows, r.2.length = a.cols.length)
    (hlb : ∀ r ∈ b.rows, r.2.length = b.cols.length)
    (s : Int) (f : String) :
    valueAt (joinTables a b) s f
      = if f ∈ a.cols then valueAt a s f else valueAt b s f := by
  have hia : (a.rows.map Prod.fst).Pairwise (fun p q => p < q) :=
    List.pairwise_map.mpr hsa
  have hib : (b.rows.map Prod.fst).Pairwise (fun p q => p < q) :=
    List.pairwise_map.mpr hsb
  have hms := mergeIdx_sorted _ _ hia hib
  have hjcols : (joinTables a b).cols = a.cols ++ b.cols := rfl
  by_cases hfa : f ∈ a.cols
  · rw [if_pos hfa]
    obtain ⟨i, hi⟩ :=
      Option.isSome_iff_exists.mp ((findIdx?_isSome_iff_mem a.cols f).mpr hfa)
    have hilt : i < a.cols.length := findIdx?_lt_length a.cols i hi
    have hjoin_idx : (joinTables a b).cols.findIdx? (fun c => c == f) = some i := by
      rw [hjcols, List.findIdx?_append, hi]
      rfl
    by_cases hsmem : s ∈ mergeIdx (a.rows.map Prod.fst) (b.rows.map Prod.fst)
    · have hrl := rowLookup_joinTables_mem a b s hms hsmem
      have hrow : (joinRow a b s).2
          = ((rowLookup a s).getD (List.replicate a.cols.length none))
            ++ ((rowLookup b s).getD (List.replicate b.cols.length none)) := rfl
      rw [valueAt_eq_of _ s f i _ hjoin_idx hrl, hrow]
      rw [List.getD_append _ _ _ i (by rw [rowPart_length a s hla]; exact hilt)]
      cases hra : rowLookup a s with
      | none =>
        simp only [Option.getD_none]
        rw [getD_replicate_none, valueAt_none_of_row a s f hra]
      | some vs =>
        simp only [Option.getD_some]
        rw [valueAt_eq_of a s f i vs hi hra]
    · have hrl := rowLookup_joinTables_not_mem a b s hsmem
      rw [valueAt_none_of_row _ s f hrl]
      have hna : s ∉ a.rows.map Prod.fst := fun hmem =>
        hsmem ((mergeIdx_mem _ _ s).mpr (Or.inl hmem))
      rw [valueAt_none_of_row a s f (not_mem_idx_rowLookup a s hna)]
  · rw [if_neg hfa]
    have hfanone : a.cols.findIdx? (fun c => c == f) = none := by
      cases hx : a.cols.findIdx? (fun c => c == f) with
      | none => rfl
      | some i =>
        exact absurd ((findIdx?_isSome_iff_mem a.cols f).mp (by rw [hx]; rfl)) hfa
    by_cases hfb : f ∈ b.cols
    · obtain ⟨j, hj⟩ :=
        Option.isSome_iff_exists.mp ((findIdx?_isSome_iff_mem b.cols f).mpr hfb)
      have hjoin_idx : (joinTables a b).cols.findIdx? (fun c => c == f)
          = some (j + a.cols.length) := by
        rw [hjcols, List.findIdx?_append, hfanone, hj]
        rfl
      by_cases hsmem : s ∈ mergeIdx (a.rows.map Prod.fst) (b.rows.map Prod.fst)
      · have hrl := rowLookup_joinTables_mem a b s hms hsmem
        have hrow : (joinRow a b s).2
            = ((rowLookup a s).getD (List.replicate a.cols.length none))
              ++ ((rowLookup b s).getD (List.replicate b.cols.length none)) := rfl
        rw [valueAt_eq_of _ s f _ _ hjoin_idx hrl, hrow]
        rw [List.getD_append_right _ _ _ _
          (by rw [rowPart_length a s hla]; omega)]
        have hsub : j + a.cols.length
            - ((rowLookup a s).getD (List.replicate a.cols.length none)).length = j := by
          rw [rowPart_length a s hla]
          omega
        rw [hsub]
        cases hrb : rowLookup b s with
        | none =>
          simp only [Option.getD_none]
          rw [getD_replicate_none, valueAt_none_of_row b s f hrb]
        | some vs =>
          simp only [Option.getD_some]
          rw [valueAt_eq_of b s f j vs hj hrb]
      · have hrl := rowLookup_joinTables_not_mem a b s hsmem
        rw [valueAt_none_of_row _ s f hrl]
        have hnb : s ∉ b.rows.map Prod.fst := fun hmem =>
          hsmem ((mergeIdx_mem _ _ s).mpr (Or.inr hmem))
        rw [valueAt_none_of_row b s f (not_mem_idx_rowLookup b s hnb)]
    · have hfbnone : b.cols.findIdx? (fun c => c == f) = none := by
        cases hx : b.cols.findIdx? (fun c => c == f) with
        | none => rfl
        | some j =>
          exact absurd ((findIdx?_isSome_iff_mem b.cols f).mp (by rw [hx]; rfl)) hfb
      have hjoin_none : (joinTables a b).cols.findIdx? (fun c => c == f) = none := by
        rw [hjcols, List.findIdx?_append, hfanone, hfbnone]
        rfl
      rw [valueAt_none_of_col _ s f hjoin_none, valueAt_none_of_col b s f hfbnone]

theorem joinTables_rows_fst (a b : Table) :
    (joinTables a b).rows.map Prod.fst
      = mergeIdx (a.rows.map Prod.fst) (b.rows.map Prod.fst) := by
  show ((mergeIdx (a.rows.map Prod.fst) (b.rows.map Prod.fst)).map
      (joinRow a b)).map Prod.fst = _
  rw [List.map_map]
  have hcomp : Prod.fst ∘ joinRow a b = id := by
    funext x
    rfl
  rw [hcomp, List.map_id]

theorem joinTables_sorted (a b : Table)
    (hsa : a.rows.Pairwise (fun p q => p.1 < q.1))
    (hsb : b.rows.Pairwise (fun p q => p.1 < q.1)) :
    (joinTables a b).rows.Pairwise (fun p q => p.1 < q.1) := by
  have hms := mergeIdx_sorted _ _ (List.pairwise_map.mpr hsa) (List.pairwise_map.mpr hsb)
  exact List.pairwise_map.mpr hms

theorem joinTables_row_length (a b : Table)
    (hla : ∀ r ∈ a.rows, r.2.length = a.cols.length)
    (hlb : ∀ r ∈ b.rows, r.2.length = b.cols.length) :
    ∀ r ∈ (joinTables a b).rows, r.2.length = (joinTables a b).cols.length := by
  intro r hr
  rcases List.mem_map.mp hr with ⟨s, hs, rfl⟩
  show ((joinRow a b s).2).length = (a.cols ++ b.cols).length
  have hrow : (joinRow a b s).2
      = ((rowLookup a s).getD (List.replicate a.cols.length none))
        ++ ((rowLookup b s).getD (List.replicate b.cols.length none)) := rfl
  rw [hrow, List.length_append, List.length_append,
    rowPart_length a s hla, rowPart_length b s hlb]

theorem valueAt_rows_nil (t : Table) (h : t.rows = []) (s : Int) (f : String) :
    valueAt t s f = none := by
  apply valueAt_none_of_row
  unfold rowLookup
  rw [h]
  rfl

theorem idealVal_append_owned (processed : List Table) (tnew : Table)
    (s : Int) (f : String) (t0 : Table) (ht0 : t0 ∈ processed)
    (hf : f ∈ t0.cols) :
    idealVal (processed ++ [tnew]) s f = idealVal processed s f := by
  unfold idealVal ownerOf
  rw [List.find?_append]
  have ht0c : (t0.cols.contains f) = true := by simpa using hf
  have hsome : (processed.find? (fun t => t.cols.contains f)).isSome := by
    rw [List.find?_isSome]
    exact ⟨t0, ht0, ht0c⟩
  obtain ⟨t1, ht1⟩ := Option.isSome_iff_exists.mp hsome
  rw [ht1]
  rfl

theorem idealVal_append_not_owned (processed : List Table) (tnew : Table)
    (s : Int) (f : String) (hnot : ∀ t ∈ processed, f ∉ t.cols) :
    idealVal (processed ++ [tnew]) s f
      = (if f ∈ tnew.cols then valueAt tnew s f else none) := by
  unfold idealVal ownerOf
  rw [List.find?_append]
  have hnone : processed.find? (fun t => t.cols.contains f) = none := by
    rw [List.find?_eq_none]
    intro t ht
    simp only [Bool.not_eq_true]
    have := hnot t ht
    simpa using this
  rw [hnone]
  by_cases hmem : f ∈ tnew.cols
  · rw [if_pos hmem]
    have hc : ((fun t : Table => t.cols.contains f) tnew) = true := by
      simpa using hmem
    have hfind : [tnew].find? (fun t => t.cols.contains f) = some tnew :=
      List.find?_cons_of_pos _ hc
    rw [hfind]
    rfl
  · rw [if_neg hmem]
    have hc : ¬ (((fun t : Table => t.cols.contains f) tnew) = true) := by
      simpa using hmem
    have hfind : [tnew].find? (fun t => t.cols.contains f)
        = ([] : List Table).find? (fun t => t.cols.contains f) :=
      List.find?_cons_of_neg _ hc
    rw [hfind]
    rfl

theorem idealVal_not_owned_none (processed : List Table) (s : Int) (f : String)
    (hnot : ∀ t ∈ processed, f ∉ t.cols) :
    idealVal processed s f = none := by
  unfold idealVal ownerOf
  have hnone : processed.find? (fun t => t.cols.contains f) = none := by
    rw [List.find?_eq_none]
    intro t ht
    simp only [Bool.not_eq_true]
    have := hnot t ht
    simpa using this
  rw [hnone]

theorem valueAt_none_of_not_mem_col (t : Table) (s : Int) (f : String)
    (h : f ∉ t.cols) : valueAt t s f = none := by
  apply valueAt_none_of_col
  cases hx : t.cols.findIdx? (fun c => c == f) with
  | none => rfl
  | some i =>
    exact absurd ((findIdx?_isSome_iff_mem _ f).mp (by rw [hx]; rfl)) h

theorem mergeStep_inv (processed : List Table) (acc tnew : Table)
    (hwf : TWF tnew)
    (hdisj : ∀ t ∈ processed, ColsDisj t tnew)
    (hinv : MergeInv processed acc) :
    MergeInv (processed ++ [tnew]) (mergeStep acc tnew) := by
  obtain ⟨hnodup, hprov, hlen, hsorted, hidx, hval, hempcols⟩ := hinv
  obtain ⟨hwfc, hwfnd, hwfl, hwfs⟩ := hwf
  unfold mergeStep
  by_cases hemp : acc.isEmpty = true
  · rw [if_pos hemp]
    have hrows0 : acc.rows = [] := by
      unfold Table.isEmpty at hemp
      rcases Bool.or_eq_true_iff.mp hemp with h | h
      · cases hx : acc.rows with
        | nil => rfl
        | cons a t =>
          rw [hx] at h
          cases h
      · have hcols0 : acc.cols = [] := by
          cases hx : acc.cols with
          | nil => rfl
          | cons a t =>
            rw [hx] at h
            cases h
        exact hempcols hcols0
    refine ⟨hwfnd, ?_, hwfl, hwfs, ?_, ?_, ?_⟩
    · intro f hf
      exact ⟨tnew, List.mem_append.mpr (Or.inr (List.mem_cons_self _ _)), hf⟩
    · intro s
      constructor
      · intro hs
        exact ⟨tnew, List.mem_append.mpr (Or.inr (List.mem_cons_self _ _)), hs⟩
      · rintro ⟨t, ht, hst⟩
        rcases List.mem_append.mp ht with htp | htn
        · exfalso
          have hin : s ∈ acc.rows.map Prod.fst := (hidx s).mpr ⟨t, htp, hst⟩
          rw [hrows0] at hin
          cases hin
        · have heq : t = tnew := List.mem_singleton.mp htn
          subst heq
          exact hst
    · intro s f
      by_cases hof : ∃ t0 ∈ processed, f ∈ t0.cols
      · obtain ⟨t0, ht0, hft0⟩ := hof
        rw [idealVal_append_owned processed tnew s f t0 ht0 hft0, ← hval s f]
        rw [valueAt_rows_nil acc hrows0 s f]
        exact valueAt_none_of_not_mem_col tnew s f (hdisj t0 ht0 f hft0)
      · push_neg at hof
        rw [idealVal_append_not_owned processed tnew s f hof]
        by_cases hft : f ∈ tnew.cols
        · rw [if_pos hft]
        · rw [if_neg hft]
          exact valueAt_none_of_not_mem_col tnew s f hft
    · intro hc
      exact absurd hc hwfc
  · rw [if_neg hemp]
    have hdisj2 : ∀ f ∈ acc.cols, f ∉ tnew.cols := by
      intro f hf
      obtain ⟨t0, ht0, hft0⟩ := hprov f hf
      exact hdisj t0 ht0 f hft0
    refine ⟨?_, ?_, ?_, ?_, ?_, ?_, ?_⟩
    · show (acc.cols ++ tnew.cols).Nodup
      exact List.Nodup.append hnodup hwfnd (List.disjoint_left.mpr hdisj2)
    · intro f hf
      have hf2 : f ∈ acc.cols ++ tnew.cols := hf
      rcases List.mem_append.mp hf2 with h1 | h1
      · obtain ⟨t0, ht0, hft0⟩ := hprov f h1
        exact ⟨t0, List.mem_append.mpr (Or.inl ht0), hft0⟩
      · exact ⟨tnew, List.mem_append.mpr (Or.inr (List.mem_cons_self _ _)), h1⟩
    · exact joinTables_row_length acc tnew hlen hwfl
    · exact joinTables_sorted acc tnew hsorted hwfs
    · intro s
      rw [joinTables_rows_fst, mergeIdx_mem]
      constructor
      · rintro (h1 | h1)
        · obtain ⟨t, ht, hst⟩ := (hidx s).mp h1
          exact ⟨t, List.mem_append.mpr (Or.inl ht), hst⟩
        · exact ⟨tnew, List.mem_append.mpr (Or.inr (List.mem_cons_self _ _)), h1⟩
      · rintro ⟨t, ht, hst⟩
        rcases List.mem_append.mp ht with htp | htn
        · exact Or.inl ((hidx s).mpr ⟨t, htp, hst⟩)
        · have heq : t = tnew := List.mem_singleton.mp htn
          subst heq
          exact Or.inr hst
    · intro s f
      rw [valueAt_joinTables acc tnew hsorted hwfs hlen hwfl s f]
      by_cases hfacc : f ∈ acc.cols
      · rw [if_pos hfacc, hval s f]
        obtain ⟨t0, ht0, hft0⟩ := hprov f hfacc
        rw [idealVal_append_owned processed tnew s f t0 ht0 hft0]
      · rw [if_neg hfacc]
        by_cases hof : ∃ t0 ∈ processed, f ∈ t0.cols
        · obtain ⟨t0, ht0, hft0⟩ := hof
          rw [idealVal_append_owned processed tnew s f t0 ht0 hft0, ← hval s f]
          rw [valueAt_none_of_not_mem_col acc s f hfacc]
          exact valueAt_none_of_not_mem_col tnew s f (hdisj t0 ht0 f hft0)
        · push_neg at hof
          rw [idealVal_append_not_owned processed tnew s f hof]
          by_cases hft : f ∈ tnew.cols
          · rw [if_pos hft]
          · rw [if_neg hft]
            exact valueAt_none_of_not_mem_col tnew s f hft
    · intro hc
      have hc2 : tnew.cols = [] := (List.append_eq_nil.mp hc).2
      exact absurd hc2 hwfc

theorem foldl_mergeStep_inv (ls : List Table) :
    ∀ (processed : List Table) (acc : Table),
    (∀ t ∈ ls, TWF t) →
    (processed ++ ls).Pairwise ColsDisj →
    MergeInv processed acc →
    MergeInv (processed ++ ls) (ls.foldl mergeStep acc) := by
  induction ls with
  | nil =>
    intro processed acc _ _ h
    simpa using h
  | cons tnew rest ih =>
    intro processed acc hwf hdisj hinv
    have hdisj1 : ∀ t ∈ processed, ColsDisj t tnew := by
      intro t ht
      have hsplit := List.pairwise_append.mp hdisj
      exact hsplit.2.2 t ht tnew (List.mem_cons_self _ _)
    have hstep := mergeStep_inv processed acc tnew
      (hwf tnew (List.mem_cons_self _ _)) hdisj1 hinv
    have hre : processed ++ tnew :: rest = (processed ++ [tnew]) ++ rest :=
      List.append_cons processed tnew rest
    rw [hre] at hdisj ⊢
    rw [List.foldl_cons]
    exact ih (processed ++ [tnew]) (mergeStep acc tnew)
      (fun t ht => hwf t (List.mem_cons_of_mem _ ht)) hdisj hstep

theorem mergeInv_init : MergeInv [] emptyTable := by
  refine ⟨List.nodup_nil, ?_, ?_, List.Pairwise.nil, ?_, ?_, ?_⟩
  · intro f hf
    cases hf
  · intro r hr
    cases hr
  · intro s
    constructor
    · intro h
      cases h
    · rintro ⟨t, ht, _⟩
      cases ht
  · intro s f
    rw [valueAt_rows_nil emptyTable rfl s f,
      idealVal_not_owned_none [] s f (fun t ht => absurd ht (List.not_mem_nil t))]
  · intro _
    rfl

theorem find?_key_filter (p : (Int × List (Option ℚ)) → Bool)
    (rows : List (Int × List (Option ℚ))) (s : Int)
    (hsorted : rows.Pairwise (fun a b => a.1 < b.1)) :
    (rows.filter p).find? (fun r => r.1 == s)
      = match rows.find? (fun r => r.1 == s) with
        | some r => if p r then some r else none
        | none => none := by
  induction rows with
  | nil => rfl
  | cons a t ih =>
    have hh := List.pairwise_cons.mp hsorted
    by_cases hkey : a.1 = s
    · have hca : ((a.1 == s) = true) := by simpa using hkey
      have hfind : (a :: t).find? (fun r => r.1 == s) = some a :=
        List.find?_cons_of_pos _ hca
      rw [hfind]
      by_cases hpa : p a = true
      · rw [List.filter_cons_of_pos hpa]
        have hfind2 : (a :: t.filter p).find? (fun r => r.1 == s) = some a :=
          List.find?_cons_of_pos _ hca
        rw [hfind2]
        show some a = if p a = true then some a else none
        rw [if_pos hpa]
      · rw [List.filter_cons_of_neg hpa]
        show (t.filter p).find? (fun r => r.1 == s)
            = if p a = true then some a else none
        rw [if_neg hpa]
        rw [List.find?_eq_none]
        intro r hr
        have hrt : r ∈ t := List.mem_of_mem_filter hr
        have hlt : a.1 < r.1 := hh.1 r hrt
        simp only [beq_iff_eq]
        omega
    · have hca : ¬ ((a.1 == s) = true) := by simpa using hkey
      have hfind : (a :: t).find? (fun r => r.1 == s)
          = t.find? (fun r => r.1 == s) :=
        List.find?_cons_of_neg _ hca
      rw [hfind]
      by_cases hpa : p a = true
      · rw [List.filter_cons_of_pos hpa]
        have hskip : (a :: t.filter p).find? (fun r => r.1 == s)
            = (t.filter p).find? (fun r => r.1 == s) :=
          List.find?_cons_of_neg _ hca
        rw [hskip]
        exact ih hh.2
      · rw [List.filter_cons_of_neg hpa]
        exact ih hh.2

theorem valueAt_dropAllNa (M : Table)
    (hsorted : M.rows.Pairwise (fun p q => p.1 < q.1))
    (hlen : ∀ r ∈ M.rows, r.2.length = M.cols.length)
    (s : Int) (f : String) :
    valueAt (dropAllNa M) s f = valueAt M s f := by
  cases hfi : M.cols.findIdx? (fun c => c == f) with
  | none =>
    rw [valueAt_none_of_col M s f hfi]
    exact valueAt_none_of_col (dropAllNa M) s f hfi
  | some i =>
    have hilt : i < M.cols.length := findIdx?_lt_length _ _ hfi
    have hfilt := find?_key_filter (fun r => r.2.any (fun v => v.isSome)) M.rows s hsorted
    cases hfM : M.rows.find? (fun r => r.1 == s) with
    | none =>
      have h1 : rowLookup M s = none := by
        unfold rowLookup
        rw [hfM]
        rfl
      have h2 : rowLookup (dropAllNa M) s = none := by
        unfold rowLookup
        show ((M.rows.filter (fun r => r.2.any (fun v => v.isSome))).find?
          (fun r => r.1 == s)).map Prod.snd = none
        rw [hfilt, hfM]
        rfl
      rw [valueAt_none_of_row _ s f h2, valueAt_none_of_row M s f h1]
    | some r =>
      have h1 : rowLookup M s = some r.2 := by
        unfold rowLookup
        rw [hfM]
        rfl
      by_cases hp : (r.2.any (fun v => v.isSome)) = true
      · have h2 : rowLookup (dropAllNa M) s = some r.2 := by
          unfold rowLookup
          show ((M.rows.filter (fun r => r.2.any (fun v => v.isSome))).find?
            (fun r => r.1 == s)).map Prod.snd = some r.2
          rw [hfilt, hfM]
          show (if (r.2.any (fun v => v.isSome)) = true
              then some r else none).map Prod.snd = some r.2
          rw [if_pos hp]
          rfl
        rw [valueAt_eq_of (dropAllNa M) s f i r.2 hfi h2,
          valueAt_eq_of M s f i r.2 hfi h1]
      · have h2 : rowLookup (dropAllNa M) s = none := by
          unfold rowLookup
          show ((M.rows.filter (fun r => r.2.any (fun v => v.isSome))).find?
            (fun r => r.1 == s)).map Prod.snd = none
          rw [hfilt, hfM]
          show (if (r.2.any (fun v => v.isSome)) = true
              then some r else none).map Prod.snd = none
          rw [if_neg hp]
          rfl
        rw [valueAt_none_of_row _ s f h2, valueAt_eq_of M s f i r.2 hfi h1]
        have hmem : r ∈ M.rows := List.mem_of_find?_eq_some hfM
        have hrl : r.2.length = M.cols.length := hlen r hmem
        have hilt2 : i < r.2.length := by
          rw [hrl]
          exact hilt
        rw [List.getD_eq_getElem?_getD, List.getElem?_eq_getElem hilt2]
        cases hv : r.2[i] with
        | none => rfl
        | some q =>
          exfalso
          apply hp
          rw [List.any_eq_true]
          refine ⟨some q, ?_, rfl⟩
          rw [← hv]
          exact List.getElem_mem hilt2

theorem mem_idx_dropAllNa (M : Table) (s : Int) :
    s ∈ (dropAllNa M).rows.map Prod.fst
      ↔ ∃ r ∈ M.rows, r.1 = s ∧ (r.2.any (fun v => v.isSome)) = true := by
  show s ∈ (M.rows.filter (fun r => r.2.any (fun v => v.isSome))).map Prod.fst ↔ _
  rw [List.mem_map]
  constructor
  · rintro ⟨r, hr, rfl⟩
    have hm := List.mem_filter.mp hr
    exact ⟨r, hm.1, rfl, hm.2⟩
  · rintro ⟨r, hr, hr1, hany⟩
    exact ⟨r, List.mem_filter.mpr ⟨hr, hany⟩, hr1⟩

theorem row_some_iff_valueAt (M : Table) (hnodup : M.cols.Nodup)
    (hsorted : M.rows.Pairwise (fun p q => p.1 < q.1))
    (hlen : ∀ r ∈ M.rows, r.2.length = M.cols.length)
    (s : Int) (vs : List (Option ℚ)) (hmem : (s, vs) ∈ M.rows) :
    (vs.any (fun v => v.isSome) = true) ↔ ∃ f, valueAt M s f ≠ none := by
  have hrl : rowLookup M s = some vs := rowLookup_of_mem_sorted M s vs hsorted hmem
  have hlenvs : vs.length = M.cols.length := hlen (s, vs) hmem
  constructor
  · intro hany
    obtain ⟨v, hv, hvs⟩ := List.any_eq_true.mp hany
    obtain ⟨i, hi, hvi⟩ := List.mem_iff_getElem.mp hv
    have hiltc : i < M.cols.length := by
      rw [← hlenvs]
      exact hi
    refine ⟨M.cols.get ⟨i, hiltc⟩, ?_⟩
    rw [valueAt_eq_of M s (M.cols.get ⟨i, hiltc⟩) i vs
      (findIdx?_get_nodup M.cols i hiltc hnodup) hrl]
    rw [List.getD_eq_getElem?_getD, List.getElem?_eq_getElem hi]
    rw [hvi]
    intro hcontra
    rw [Option.getD_some] at hcontra
    rw [hcontra] at hvs
    cases hvs
  · rintro ⟨f, hf⟩
    cases hfi : M.cols.findIdx? (fun c => c == f) with
    | none => exact absurd (valueAt_none_of_col M s f hfi) hf
    | some i =>
      rw [valueAt_eq_of M s f i vs hfi hrl] at hf
      have hilt : i < M.cols.length := findIdx?_lt_length _ _ hfi
      have hiv : i < vs.length := by
        rw [hlenvs]
        exact hilt
      rw [List.getD_eq_getElem?_getD, List.getElem?_eq_getElem hiv] at hf
      rw [List.any_eq_true]
      refine ⟨vs[i], List.getElem_mem hiv, ?_⟩
      cases hv : vs[i] with
      | none =>
        exfalso
        apply hf
        rw [hv]
        rfl
      | some q => rfl

theorem colsDisj_symm : ∀ {a b : Table}, ColsDisj a b → ColsDisj b a := by
  intro a b h f hfb hfa
  exact h f hfa hfb

theorem owner_unique (l : List Table) (hd : l.Pairwise ColsDisj)
    (t1 t2 : Table) (f : String)
    (h1 : t1 ∈ l) (h2 : t2 ∈ l) (hf1 : f ∈ t1.cols) (hf2 : f ∈ t2.cols) :
    t1 = t2 := by
  induction l with
  | nil => cases h1
  | cons a rest ih =>
    have hh := List.pairwise_cons.mp hd
    rcases List.mem_cons.mp h1 with rfl | h1r
    · rcases List.mem_cons.mp h2 with rfl | h2r
      · rfl
      · exact absurd hf2 (hh.1 t2 h2r f hf1)
    · rcases List.mem_cons.mp h2 with rfl | h2r
      · exact absurd hf1 (hh.1 t1 h1r f hf2)
      · exact ih hh.2 h1r h2r

theorem ownerOf_spec (l : List Table) (f : String) (t : Table)
    (h : ownerOf l f = some t) : t ∈ l ∧ f ∈ t.cols := by
  refine ⟨List.mem_of_find?_eq_some h, ?_⟩
  have hc := List.find?_some h
  simpa using hc

theorem ownerOf_none (l : List Table) (f : String)
    (h : ownerOf l f = none) : ∀ t ∈ l, f ∉ t.cols := by
  intro t ht hf
  have hall := List.find?_eq_none.mp h t ht
  apply hall
  simpa using hf

theorem idealVal_perm (l1 l2 : List Table) (hperm : l1.Perm l2)
    (hd1 : l1.Pairwise ColsDisj) (s : Int) (f : String) :
    idealVal l1 s f = idealVal l2 s f := by
  cases ho1 : ownerOf l1 f with
  | none =>
    cases ho2 : ownerOf l2 f with
    | none =>
      unfold idealVal
      rw [ho1, ho2]
    | some t2 =>
      obtain ⟨hm2, hf2⟩ := ownerOf_spec l2 f t2 ho2
      exact absurd hf2 (ownerOf_none l1 f ho1 t2 (hperm.mem_iff.mpr hm2))
  | some t1 =>
    obtain ⟨hm1, hf1⟩ := ownerOf_spec l1 f t1 ho1
    cases ho2 : ownerOf l2 f with
    | none =>
      exact absurd hf1 (ownerOf_none l2 f ho2 t1 (hperm.mem_iff.mp hm1))
    | some t2 =>
      obtain ⟨hm2, hf2⟩ := ownerOf_spec l2 f t2 ho2
      have ht12 : t1 = t2 :=
        owner_unique l1 hd1 t1 t2 f hm1 (hperm.mem_iff.mpr hm2) hf1 hf2
      unfold idealVal
      rw [ho1, ho2, ht12]

theorem sorted_eq_of_mem_iff : ∀ (xs ys : List Int),
    xs.Pairwise (fun a b => a < b) → ys.Pairwise (fun a b => a < b) →
    (∀ s, s ∈ xs ↔ s ∈ ys) → xs = ys := by
  intro xs
  induction xs with
  | nil =>
    intro ys _ _ hmem
    cases ys with
    | nil => rfl
    | cons y t =>
      exact absurd ((hmem y).mpr (List.mem_cons_self y t)) (List.not_mem_nil y)
  | cons x xs ih =>
    intro ys hxs hys hmem
    cases ys with
    | nil =>
      exact absurd ((hmem x).mp (List.mem_cons_self x xs)) (List.not_mem_nil x)
    | cons y t =>
      have hhx := List.pairwise_cons.mp hxs
      have hhy := List.pairwise_cons.mp hys
      have hxy : x = y := by
        rcases List.mem_cons.mp ((hmem x).mp (List.mem_cons_self x xs)) with h | h
        · exact h
        · rcases List.mem_cons.mp ((hmem y).mpr (List.mem_cons_self y t)) with h2 | h2
          · omega
          · have hlt1 := hhy.1 x h
            have hlt2 := hhx.1 y h2
            omega
      subst hxy
      congr 1
      apply ih t hhx.2 hhy.2
      intro s
      constructor
      · intro hs
        have hlt := hhx.1 s hs
        rcases List.mem_cons.mp ((hmem s).mp (List.mem_cons_of_mem x hs)) with h | h
        · exfalso
          omega
        · exact h
      · intro hs
        have hlt := hhy.1 s hs
        rcases List.mem_cons.mp ((hmem s).mpr (List.mem_cons_of_mem x hs)) with h | h
        · exfalso
          omega
        · exact h

theorem mergeAll_semantics (l : List Table)
    (hwf : ∀ t ∈ l, TWF t) (hd : l.Pairwise ColsDisj) :
    ((mergeAll l).rows.map Prod.fst).Pairwise (fun a b => a < b)
    ∧ (∀ s, s ∈ (mergeAll l).rows.map Prod.fst ↔ ∃ f, idealVal l s f ≠ none)
    ∧ (∀ s f, valueAt (mergeAll l) s f = idealVal l s f)
    ∧ (∀ r ∈ (mergeAll l).rows, (r.2.any (fun v => v.isSome)) = true) := by
  have hinv := foldl_mergeStep_inv l [] emptyTable hwf (by simpa using hd)
    mergeInv_init
  rw [List.nil_append] at hinv
  obtain ⟨hnodup, hprov, hlen, hsorted, hidx, hval, hempc⟩ := hinv
  refine ⟨?_, ?_, ?_, ?_⟩
  · show (((l.foldl mergeStep emptyTable).rows.filter
      (fun r => r.2.any (fun v => v.isSome))).map Prod.fst).Pairwise (fun a b => a < b)
    exact List.pairwise_map.mpr
      (List.Pairwise.sublist (List.filter_sublist _) hsorted)
  · intro s
    have hdm := mem_idx_dropAllNa (l.foldl mergeStep emptyTable) s
    constructor
    · intro hs
      obtain ⟨r, hr, hr1, hany⟩ := hdm.mp hs
      obtain ⟨s2, vs⟩ := r
      simp only at hr1
      subst hr1
      obtain ⟨f, hf⟩ := (row_some_iff_valueAt (l.foldl mergeStep emptyTable)
        hnodup hsorted hlen s2 vs hr).mp hany
      refine ⟨f, ?_⟩
      rw [← hval s2 f]
      exact hf
    · rintro ⟨f, hf⟩
      rw [← hval s f] at hf
      cases hrl : rowLookup (l.foldl mergeStep emptyTable) s with
      | none =>
        exact absurd (valueAt_none_of_row _ s f hrl) hf
      | some vs =>
        have hmem := rowLookup_mem _ s vs hrl
        have hany := (row_some_iff_valueAt (l.foldl mergeStep emptyTable)
          hnodup hsorted hlen s vs hmem).mpr ⟨f, hf⟩
        exact hdm.mpr ⟨(s, vs), hmem, rfl, hany⟩
  · intro s f
    have h1 : valueAt (mergeAll l) s f
        = valueAt (l.foldl mergeStep emptyTable) s f :=
      valueAt_dropAllNa (l.foldl mergeStep emptyTable) hsorted hlen s f
    rw [h1, hval s f]
  · intro r hr
    have hr2 : r ∈ (l.foldl mergeStep emptyTable).rows.filter
        (fun r => r.2.any (fun v => v.isSome)) := hr
    exact (List.mem_filter.mp hr2).2

/-- Claim C9: merging a list of well-formed normalized series with
pairwise-disjoint column names is order-independent up to column order:
for every permutation of the series list, the merge loop of
`process_ulog_to_dataframe` followed by the drop of fully-empty rows
(`mergeAll`) produces the same time index — the same sorted list of
seconds — and, for every field name and every second, the same cell
value; and in both results every remaining row keeps at least one
non-missing cell (fully-empty rows are dropped in both cases). -/
theorem mergeAll_order_independent (l1 l2 : List Table)
    (hperm : l1.Perm l2)
    (hwf : ∀ t ∈ l1, TWF t)
    (hd : l1.Pairwise ColsDisj) :
    ((mergeAll l1).rows.map Prod.fst = (mergeAll l2).rows.map Prod.fst)
    ∧ (∀ s f, valueAt (mergeAll l1) s f = valueAt (mergeAll l2) s f)
    ∧ (∀ r ∈ (mergeAll l1).rows, ∃ v ∈ r.2, v.isSome = true)
    ∧ (∀ r ∈ (mergeAll l2).rows, ∃ v ∈ r.2, v.isSome = true) := by
  have hwf2 : ∀ t ∈ l2, TWF t := fun t ht => hwf t (hperm.mem_iff.mpr ht)
  have hd2 : l2.Pairwise ColsDisj :=
    (List.Perm.pairwise_iff (fun hx => colsDisj_symm hx) hperm).mp hd
  obtain ⟨hs1, hm1, hv1, hne1⟩ := mergeAll_semantics l1 hwf hd
  obtain ⟨hs2, hm2, hv2, hne2⟩ := mergeAll_semantics l2 hwf2 hd2
  have hival : ∀ s f, idealVal l1 s f = idealVal l2 s f :=
    fun s f => idealVal_perm l1 l2 hperm hd s f
  refine ⟨?_, ?_, ?_, ?_⟩
  · apply sorted_eq_of_mem_iff _ _ hs1 hs2
    intro s
    rw [hm1 s, hm2 s]
    constructor
    · rintro ⟨f, hf⟩
      refine ⟨f, ?_⟩
      rw [← hival s f]
      exact hf
    · rintro ⟨f, hf⟩
      refine ⟨f, ?_⟩
      rw [hival s f]
      exact hf
  · intro s f
    rw [hv1 s f, hv2 s f, hival s f]
  · intro r hr
    obtain ⟨v, hv, hvs⟩ := List.any_eq_true.mp (hne1 r hr)
    exact ⟨v, hv, hvs⟩
  · intro r hr
    obtain ⟨v, hv, hvs⟩ := List.any_eq_true.mp (hne2 r hr)
    exact ⟨v, hv, hvs⟩

/-- Concrete instantiation of `mergeAll_order_independent` on two
one-column series merged in both orders. -/
theorem mergeAll_order_independent_check :
    ((mergeAll [⟨["pressure"], [(0, [some 5])]⟩,
        ⟨["therm_temp_celcius"], [(1, [some 7])]⟩]).rows.map Prod.fst
      = (mergeAll [⟨["therm_temp_celcius"], [(1, [some 7])]⟩,
          ⟨["pressure"], [(0, [some 5])]⟩]).rows.map Prod.fst)
    ∧ valueAt (mergeAll [⟨["pressure"], [(0, [some 5])]⟩,
        ⟨["therm_temp_celcius"], [(1, [some 7])]⟩]) 0 "pressure"
      = valueAt (mergeAll [⟨["therm_temp_celcius"], [(1, [some 7])]⟩,
          ⟨["pressure"], [(0, [some 5])]⟩]) 0 "pressure" := by
  have h := mergeAll_order_independent
    [⟨["pressure"], [(0, [some 5])]⟩, ⟨["therm_temp_celcius"], [(1, [some 7])]⟩]
    [⟨["therm_temp_celcius"], [(1, [some 7])]⟩, ⟨["pressure"], [(0, [some 5])]⟩]
    (List.Perm.swap _ _ _)
    (by
      intro t ht
      rcases List.mem_cons.mp ht with rfl | ht2
      · exact ⟨by decide, by decide, by decide, by decide⟩
      · rcases List.mem_cons.mp ht2 with rfl | ht3
        · exact ⟨by decide, by decide, by decide, by decide⟩
        · cases ht3)
    (by
      refine List.pairwise_cons.mpr ⟨?_, List.pairwise_singleton _ _⟩
      intro b hb
      rcases List.mem_cons.mp hb with rfl | hb2
      · show ∀ f, f ∈ (["pressure"] : List String)
          → f ∉ (["therm_temp_celcius"] : List String)
        decide
      · cases hb2)
  exact ⟨h.1, h.2.1 0 "pressure"⟩
